import Mathlib

/-!
# Context-map decoding (jxl/dec_context_map.cc)

A shallow embedding of the context-map decoder: the move-to-front helpers,
the density validator and `DecodeContextMap` itself, followed by theorems
about them.

Conventions of the embedding.

* A `uint8_t` buffer is a `List Nat`; every store into it is reduced modulo
  256, and theorems that read caller-provided bytes assume `IsBytes`.
* `size_t` arithmetic is reduced modulo `2 ^ 64`, `int32_t` values are
  integers in `[-2 ^ 31, 2 ^ 31)`.
* Behaviour the C++ standard leaves undefined (dereferencing `end()`, signed
  overflow) is reported as `Status.undefined`.
* The decoder mutates its arguments in place; the embedding returns the
  final value of every argument together with the status.
* Every call of a collaborator and every store of the general-path loop is
  appended to an event log (ghost state), so that statements about what was
  invoked or written can be expressed.
* The general-path loop is run with an iteration bound equal to the length
  of the map; `DecodeContextMap_total` shows that the bound is never reached
  for a map shorter than `2 ^ 63` entries, which covers every
  `std::vector<uint8_t>`.
-/

namespace jxl

/-! ## Status values -/

/-- Outcome of a call: `ok` is `true`, `failure` is `JXL_FAILURE(msg)`,
`undefined` marks an execution that leaves defined C++ behaviour. -/
inductive Status where
  | ok
  | failure (msg : String)
  | undefined (what : String)
  deriving DecidableEq, Repr

/-- All entries are valid `uint8_t` values. -/
def IsBytes (v : List Nat) : Prop := ∀ x ∈ v, x < 256

instance (v : List Nat) : Decidable (IsBytes v) := by
  unfold IsBytes; infer_instance

/-! ## Move-to-front -/

/-- The loop `for (; i; --i) v[i] = v[i - 1];` started with counter `i`. -/
def MoveToFront.shift (v : List Nat) : Nat → List Nat
  | 0 => v
  | i + 1 => MoveToFront.shift (v.set (i + 1) (v.getD i 0)) i

/-- Embedding of `MoveToFront(uint8_t* v, uint8_t index)`. -/
def MoveToFront (v : List Nat) (index : Nat) : List Nat :=
  let value := v.getD index 0
  (MoveToFront.shift v index).set 0 value

/-- The second loop of `InverseMoveToFrontTransform`: `n` iterations remain,
`i` is the loop counter, `mtf` the table and `v` the buffer. -/
def InverseMoveToFrontTransform.loop : Nat → Nat → List Nat → List Nat → List Nat
  | 0, _, _, v => v
  | n + 1, i, mtf, v =>
    let index := v.getD i 0
    let v1 := v.set i (mtf.getD index 0)
    let mtf1 := if index ≠ 0 then MoveToFront mtf index else mtf
    InverseMoveToFrontTransform.loop n (i + 1) mtf1 v1

/-- Embedding of `InverseMoveToFrontTransform(uint8_t* v, int v_len)`; the
table starts as the identity on `0..255` and the loop runs while
`i < v_len`. -/
def InverseMoveToFrontTransform (v : List Nat) (v_len : Int) : List Nat :=
  InverseMoveToFrontTransform.loop v_len.toNat 0 (List.range 256) v

/-! ## Validation -/

/-- The range-for loop of `VerifyContextMap`; `none` is the early return
with "Invalid histogram index in context map.". -/
def VerifyContextMap.loop (num_htrees : Nat) :
    List Nat → List Bool → Nat → Option (List Bool × Nat)
  | [], have_htree, num_found => some (have_htree, num_found)
  | htree :: rest, have_htree, num_found =>
    if htree ≥ num_htrees then none
    else if !(have_htree.getD htree false) then
      VerifyContextMap.loop num_htrees rest (have_htree.set htree true) (num_found + 1)
    else
      VerifyContextMap.loop num_htrees rest have_htree num_found

/-- Embedding of `VerifyContextMap(context_map, num_htrees)`. -/
def VerifyContextMap (context_map : List Nat) (num_htrees : Nat) : Status :=
  match VerifyContextMap.loop num_htrees context_map (List.replicate num_htrees false) 0 with
  | none => Status.failure "Invalid histogram index in context map."
  | some (_, num_found) =>
    if num_found ≠ num_htrees then Status.failure "Incomplete context map."
    else Status.ok

/-! ## Machine integers -/

/-- Largest `int32_t`. -/
def INT32_MAX : Int := 2 ^ 31 - 1

/-- Smallest `int32_t`. -/
def INT32_MIN : Int := -(2 ^ 31)

/-- Conversion of an integer to `int32_t` (two-complement wrap). -/
def toInt32 (x : Int) : Int := (x + 2 ^ 31) % 2 ^ 32 - 2 ^ 31

/-- Number of values of `size_t`. -/
def SIZE_MOD : Nat := 2 ^ 64

/-- Modelled from the spec: the constant `kMaxClusters` is declared in
`jxl/ans_params.h`, which is not part of the sources at hand; the spec gives
256 as its value. -/
def kMaxClusters : Nat := 256

/-! ## Bit reader -/

/-- Modelled from the spec: the bit cursor `BitReader` is declared in a
header that is not part of the sources at hand. It is a bit sequence with a
read position; a read of `n` bits returns them as an unsigned integer (first
bit least significant) and advances the position by exactly `n`. Positions
past the end of the sequence read as zero bits. -/
structure BitReader where
  bits : List Bool
  pos : Nat
  deriving DecidableEq, Repr

/-- Value of a bit string as an unsigned integer, first bit least
significant. -/
def bitsValue : List Bool → Nat
  | [] => 0
  | b :: bs => b.toNat + 2 * bitsValue bs

/-- The `nbits` bits of the stream from position `p` on. -/
def BitReader.window (br : BitReader) (p nbits : Nat) : List Bool :=
  (List.range nbits).map fun k => br.bits.getD (p + k) false

/-- Embedding of `BitReader::ReadBits(nbits)`. -/
def BitReader.ReadBits (br : BitReader) (nbits : Nat) : Nat × BitReader :=
  (bitsValue (br.window br.pos nbits), { br with pos := br.pos + nbits })

/-- Embedding of `BitReader::ReadFixedBits<N>()`. -/
def BitReader.ReadFixedBits (br : BitReader) (N : Nat) : Nat × BitReader :=
  br.ReadBits N

/-! ## Entropy-decoding collaborators -/

/-- The entropy-decoding services used by the general path. They live in
`jxl/dec_ans.h` and `jxl/entropy_coder.h`, outside the sources at hand, and
are taken as parameters: `ANSCode` and `ANSSymbolReader` are the state types
of the collaborator, and every function returns the new value of each
argument it may mutate.

* `DecodeHistograms input num_distributions disallow_lz77` returns the
  status, the code, the auxiliary context map and the advanced bit reader.
* `newReader code input` is the constructor `ANSSymbolReader(&code, input)`.
* `ReadHybridUint reader ctx input context_map` returns the raw code.
* `UnpackSigned` maps a raw code to a signed value.
* `CheckANSFinalState reader` is the terminal-state check. -/
structure EntropyCoder (ANSCode ANSSymbolReader : Type) where
  DecodeHistograms : BitReader → Nat → Bool → Status × ANSCode × List Nat × BitReader
  newReader : ANSCode → BitReader → ANSSymbolReader × BitReader
  ReadHybridUint : ANSSymbolReader → Nat → BitReader → List Nat → Nat × ANSSymbolReader × BitReader
  UnpackSigned : Nat → Int
  CheckANSFinalState : ANSSymbolReader → Bool

/-- Entries of the event log (ghost state): the collaborator calls made and
the stores performed by the general-path loop, in program order. -/
inductive Event where
  | decodeHistograms (num_distributions : Nat) (disallow_lz77 : Bool)
  | readSymbol (sym : Int)
  | store (index value : Nat)
  | checkFinalState (ok : Bool)
  deriving DecidableEq, Repr

/-- Call of `DecodeHistograms`, paired with the log entry recording its
arguments. -/
def EntropyCoder.callDecodeHistograms {C R : Type} (E : EntropyCoder C R)
    (input : BitReader) (num_distributions : Nat) (disallow_lz77 : Bool) :
    (Status × C × List Nat × BitReader) × Event :=
  (E.DecodeHistograms input num_distributions disallow_lz77,
   Event.decodeHistograms num_distributions disallow_lz77)

/-- The expression `UnpackSigned(reader.ReadHybridUint(0, input, dummy_ctx_map))`
assigned to the `int32_t sym`, paired with the log entry recording the
symbol. -/
def EntropyCoder.readSymbol {C R : Type} (E : EntropyCoder C R) (reader : R)
    (input : BitReader) (dummy_ctx_map : List Nat) : (Int × R × BitReader) × Event :=
  let r := E.ReadHybridUint reader 0 input dummy_ctx_map
  let sym := toInt32 (E.UnpackSigned r.1)
  ((sym, r.2.1, r.2.2), Event.readSymbol sym)

/-- The store `(*context_map)[i] = sym` into the `uint8_t` buffer, paired
with the log entry recording index and stored byte. -/
def storeByte (context_map : List Nat) (i : Nat) (sym : Int) : List Nat × Event :=
  (context_map.set i (sym.toNat % 256), Event.store i (sym.toNat % 256))

/-! ## The decoder -/

/-- Value of `*std::max_element(begin, end)`; `none` when the range is empty
(the returned iterator is `end()` and must not be dereferenced). -/
def max_element : List Nat → Option Nat
  | [] => none
  | x :: xs => some (xs.foldl (fun largest y => if largest < y then y else largest) x)

/-- State of the general-path loop: the status so far, the buffer, the write
cursor `i`, the symbol reader, the bit reader and the event log. -/
structure LoopState (R : Type) where
  status : Status
  context_map : List Nat
  i : Nat
  reader : R
  input : BitReader
  log : List Event

/-- One iteration of the `while (i < context_map->size())` loop of the
general path. The returned status is `ok` when the loop goes on. -/
def DecodeContextMap.body {C R : Type} (E : EntropyCoder C R) (dummy_ctx_map : List Nat)
    (s : LoopState R) : LoopState R :=
  let r := E.readSymbol s.reader s.input dummy_ctx_map
  let sym := r.1.1
  let s1 : LoopState R :=
    { s with reader := r.1.2.1, input := r.1.2.2, log := s.log ++ [r.2] }
  if sym < 0 then
    if -sym + 1 > INT32_MAX then
      { s1 with status := Status.undefined "signed integer overflow" }
    else
      { s1 with i := (s.i + (-sym + 1).toNat) % SIZE_MOD }
  else
    if sym ≥ (kMaxClusters : Int) then
      { s1 with status := Status.failure "Invalid cluster ID" }
    else
      let w := storeByte s.context_map s.i sym
      { s1 with context_map := w.1, i := (s.i + 1) % SIZE_MOD, log := s1.log ++ [w.2] }

/-- The `while (i < context_map->size())` loop of the general path, with a
bound on the number of iterations; `none` when the bound is reached with the
loop condition still true. -/
def DecodeContextMap.loop {C R : Type} (E : EntropyCoder C R) (dummy_ctx_map : List Nat) :
    Nat → LoopState R → Option (LoopState R)
  | 0, s => if s.i < s.context_map.length then none else some s
  | fuel + 1, s =>
    if s.i < s.context_map.length then
      let s1 := DecodeContextMap.body E dummy_ctx_map s
      if s1.status = Status.ok then DecodeContextMap.loop E dummy_ctx_map fuel s1
      else some s1
    else some s

/-- The loop of the simple path, `n` iterations remaining:
`(*context_map)[i] = input->ReadBits(bits_per_entry)`. -/
def DecodeContextMap.simpleLoop (bits_per_entry : Nat) :
    Nat → Nat → List Nat → BitReader → List Nat × BitReader
  | 0, _, context_map, input => (context_map, input)
  | n + 1, i, context_map, input =>
    let r := input.ReadBits bits_per_entry
    DecodeContextMap.simpleLoop bits_per_entry n (i + 1) (context_map.set i (r.1 % 256)) r.2

/-- Final values of the arguments of `DecodeContextMap`, its status and the
event log. -/
structure DecodeResult where
  status : Status
  context_map : List Nat
  num_htrees : Nat
  input : BitReader
  log : List Event
  deriving DecidableEq, Repr

/-- The last two statements of `DecodeContextMap`: the cluster count is set
to the maximum plus one and the map is validated. -/
def DecodeContextMap.finish (context_map : List Nat) (num_htrees : Nat) (input : BitReader)
    (log : List Event) : DecodeResult :=
  match max_element context_map with
  | none =>
    { status := Status.undefined "dereference of end()", context_map := context_map,
      num_htrees := num_htrees, input := input, log := log }
  | some m =>
    { status := VerifyContextMap context_map (m + 1), context_map := context_map,
      num_htrees := m + 1, input := input, log := log }

/-- Embedding of `DecodeContextMap(context_map, num_htrees, input)`. The
arguments are the values on entry; the result carries their values on
return. The general-path loop is run with `context_map.length` as iteration
bound; `none` is returned only when that bound does not suffice. -/
def DecodeContextMap {C R : Type} (E : EntropyCoder C R) (context_map : List Nat)
    (num_htrees : Nat) (input : BitReader) : Option DecodeResult :=
  let b := input.ReadFixedBits 1
  let is_simple : Bool := b.1 != 0
  if is_simple then
    let w := b.2.ReadFixedBits 2
    let bits_per_entry := w.1
    let r :=
      if bits_per_entry ≠ 0 then
        DecodeContextMap.simpleLoop bits_per_entry context_map.length 0 context_map w.2
      else
        (context_map.map (fun _ => 0), w.2)
    some (DecodeContextMap.finish r.1 num_htrees r.2 [])
  else
    let h := E.callDecodeHistograms b.2 1 (decide (context_map.length ≤ 2))
    let dummy_ctx_map := h.1.2.2.1
    if h.1.1 ≠ Status.ok then
      some { status := h.1.1, context_map := context_map, num_htrees := num_htrees,
             input := h.1.2.2.2, log := [h.2] }
    else
      let rd := E.newReader h.1.2.1 h.1.2.2.2
      match DecodeContextMap.loop E dummy_ctx_map context_map.length
          { status := Status.ok, context_map := context_map, i := 0, reader := rd.1,
            input := rd.2, log := [h.2] } with
      | none => none
      | some s =>
        if s.status ≠ Status.ok then
          some { status := s.status, context_map := s.context_map, num_htrees := num_htrees,
                 input := s.input, log := s.log }
        else
          let fin := E.CheckANSFinalState s.reader
          let log := s.log ++ [Event.checkFinalState fin]
          if !fin then
            some { status := Status.failure "Invalid context map", context_map := s.context_map,
                   num_htrees := num_htrees, input := s.input, log := log }
          else
            let v := InverseMoveToFrontTransform s.context_map (toInt32 s.context_map.length)
            some (DecodeContextMap.finish v num_htrees s.input log)

/-! ## A scripted collaborator

Concrete instances of the collaborator interface, used to evaluate the
decoder on explicit inputs. -/

/-- The usual zig-zag unpacking: even codes are the non-negative values,
odd codes the negative ones. -/
def zigzagUnpack (value : Nat) : Int :=
  if value % 2 = 0 then (value / 2 : Nat) else -((value / 2 : Nat) : Int) - 1

/-- A collaborator that reads nothing from the bit stream: histogram
decoding returns `hist`, the symbol reader replays the raw codes `raws`
(then zeros) and the terminal-state check returns `final`. -/
def scriptedCoder (hist : Status) (raws : List Nat) (final : Bool) :
    EntropyCoder Unit (List Nat) where
  DecodeHistograms := fun input _ _ => (hist, (), [], input)
  newReader := fun _ input => (raws, input)
  ReadHybridUint := fun reader _ input _ => (reader.headD 0, reader.tail, input)
  UnpackSigned := zigzagUnpack
  CheckANSFinalState := fun _ => final

/-- A scripted collaborator whose raw codes are reduced modulo 1024: every
symbol it yields, from any reader state, lies between -512 and 511. -/
def boundedCoder (hist : Status) (raws : List Nat) (final : Bool) :
    EntropyCoder Unit (List Nat) where
  DecodeHistograms := fun input _ _ => (hist, (), [], input)
  newReader := fun _ input => (raws, input)
  ReadHybridUint := fun reader _ input _ => (reader.headD 0 % 1024, reader.tail, input)
  UnpackSigned := zigzagUnpack
  CheckANSFinalState := fun _ => final

/-! ## Specification-side definitions

The forward transforms the decoder is compared with, and auxiliary notions
used in the statements. -/

/-- Modelled from the spec: the forward move-to-front encoding (its code is
in `jxl/enc_context_map.cc`, not part of the sources at hand). Each value is
replaced by its current position in the table and then promoted to the
front of the table. -/
def MoveToFrontEncode.go (table : List Nat) : List Nat → List Nat
  | [] => []
  | x :: xs => table.indexOf x :: MoveToFrontEncode.go (x :: table.erase x) xs

/-- Modelled from the spec: forward move-to-front transform with the table
initialised to the identity on `0..255`. -/
def MoveToFrontEncode (x : List Nat) : List Nat :=
  MoveToFrontEncode.go (List.range 256) x

/-- Functional reading of the inverse transform: the buffer is consumed
front to back while the table is threaded through. It is proved equal to the
in-place loop in `InverseMoveToFrontTransform.loop_eq_run`. -/
def InverseMoveToFrontTransform.run (mtf : List Nat) : List Nat → List Nat
  | [] => []
  | index :: rest =>
    mtf.getD index 0 ::
      InverseMoveToFrontTransform.run (if index ≠ 0 then MoveToFront mtf index else mtf) rest

/-- Writer side of `ReadBits`: the `w`-bit field holding `value`, first bit
least significant. -/
def encodeBits : Nat → Nat → List Bool
  | 0, _ => []
  | w + 1, value => (value % 2 == 1) :: encodeBits w (value / 2)

/-- The entries of a map written one after the other as `w`-bit fields. -/
def encodeEntries (w : Nat) : List Nat → List Bool
  | [] => []
  | x :: xs => encodeBits w x ++ encodeEntries w xs

/-- State of the general-path loop after at most `k` iterations: the loop
stops earlier when its condition fails or when an iteration ended with an
error. -/
def DecodeContextMap.stateAfter {C R : Type} (E : EntropyCoder C R) (dummy_ctx_map : List Nat) :
    Nat → LoopState R → LoopState R
  | 0, s => s
  | k + 1, s =>
    if s.i < s.context_map.length ∧ s.status = Status.ok then
      DecodeContextMap.stateAfter E dummy_ctx_map k (DecodeContextMap.body E dummy_ctx_map s)
    else s

/-- Log entries that record a call of `DecodeHistograms`. -/
def Event.isDecodeHistograms : Event → Bool
  | Event.decodeHistograms _ _ => true
  | _ => false

/-- Log invariant of the general-path loop: a logged literal of at least
`kMaxClusters` means the status is "Invalid cluster ID", no terminal-state
check is logged and the logged calls of `DecodeHistograms` are those logged
before the loop. -/
def DecodeContextMap.LogInv {R : Type} (dh : List Event) (s : LoopState R) : Prop :=
  (∀ sym, Event.readSymbol sym ∈ s.log → (kMaxClusters : Int) ≤ sym →
      s.status = Status.failure "Invalid cluster ID") ∧
    (∀ b, Event.checkFinalState b ∉ s.log) ∧
    s.log.filter Event.isDecodeHistograms = dh

/-- The move-to-front table after the inverse transform has processed the
buffer entries given (the table is local to the transform; this is its
state at that point of the loop). -/
def InverseMoveToFrontTransform.tableAfter (mtf : List Nat) : List Nat → List Nat
  | [] => mtf
  | index :: rest =>
    InverseMoveToFrontTransform.tableAfter
      (if index ≠ 0 then MoveToFront mtf index else mtf) rest

/-- Log entries that record a symbol read by the general-path loop. -/
def Event.isReadSymbol : Event → Bool
  | Event.readSymbol _ => true
  | _ => false

/-! ## Move-to-front: lemmas -/

theorem MoveToFront.shift_length (v : List Nat) (i : Nat) :
    (MoveToFront.shift v i).length = v.length := by
  induction i generalizing v with
  | zero => rfl
  | succ i ih => simp [MoveToFront.shift, ih]

theorem MoveToFront.shift_getElem? (v : List Nat) (i : Nat) (hi : i < v.length) (j : Nat) :
    (MoveToFront.shift v i)[j]? =
      if j = 0 then v[0]? else if j ≤ i then v[j - 1]? else v[j]? := by
  induction i generalizing v with
  | zero =>
    by_cases hj : j = 0
    · simp [MoveToFront.shift, hj]
    · have : ¬ j ≤ 0 := by omega
      simp [MoveToFront.shift, hj]
  | succ i ih =>
    have hi1 : i < (v.set (i + 1) (v.getD i 0)).length := by simp; omega
    rw [MoveToFront.shift, ih _ hi1]
    by_cases hj : j = 0
    · subst hj; simp [List.getElem?_set]
    · simp only [hj, if_false]
      by_cases hji : j ≤ i
      · have h1 : j ≤ i + 1 := by omega
        have h2 : i + 1 ≠ j - 1 := by omega
        simp [hji, h1, List.getElem?_set, h2]
      · simp only [hji, if_false]
        by_cases hj1 : j = i + 1
        · subst hj1
          have h3 : i < v.length := by omega
          simp [List.getElem?_set, hi, List.getElem?_eq_getElem h3]
        · have h4 : ¬ j ≤ i + 1 := by omega
          have h5 : i + 1 ≠ j := by omega
          simp [h4, List.getElem?_set, h5]

theorem MoveToFront_length (v : List Nat) (index : Nat) :
    (MoveToFront v index).length = v.length := by
  simp [MoveToFront, MoveToFront.shift_length]

theorem MoveToFront_getElem? (v : List Nat) (index : Nat) (hi : index < v.length) (j : Nat) :
    (MoveToFront v index)[j]? =
      if j = 0 then v[index]? else if j ≤ index then v[j - 1]? else v[j]? := by
  unfold MoveToFront
  simp only [List.getElem?_set, MoveToFront.shift_length, MoveToFront.shift_getElem? v index hi]
  by_cases hj : j = 0
  · subst hj
    have h0 : 0 < v.length := by omega
    simp [h0, List.getElem?_eq_getElem hi]
  · have : ¬ 0 = j := by omega
    simp [hj, this]

/-- On a valid index the in-place shuffle is "take the entry out and put it
in front". -/
theorem MoveToFront_eq_cons_eraseIdx (v : List Nat) (index : Nat) (hi : index < v.length) :
    MoveToFront v index = v.getD index 0 :: v.eraseIdx index := by
  apply List.ext_getElem?
  intro j
  rw [MoveToFront_getElem? v index hi]
  by_cases hj : j = 0
  · subst hj
    simp [List.getElem?_eq_getElem hi]
  · obtain ⟨k, rfl⟩ : ∃ k, j = k + 1 := ⟨j - 1, by omega⟩
    simp only [hj, if_false, List.getElem?_cons_succ, List.getElem?_eraseIdx]
    by_cases hk : k + 1 ≤ index
    · have : k < index := by omega
      simp [hk, this]
    · have : ¬ k < index := by omega
      simp [hk, this]

theorem InverseMoveToFrontTransform.loop_append (A M B mtf : List Nat) :
    InverseMoveToFrontTransform.loop M.length A.length mtf (A ++ M ++ B) =
      A ++ InverseMoveToFrontTransform.run mtf M ++ B := by
  induction M generalizing A mtf with
  | nil => simp [InverseMoveToFrontTransform.loop, InverseMoveToFrontTransform.run]
  | cons x M ih =>
    have hget : (A ++ x :: M ++ B).getD A.length 0 = x := by
      simp [List.getElem_append_right (Nat.le_refl A.length)]
    have hset : (A ++ x :: M ++ B).set A.length (mtf.getD x 0) =
        (A ++ [mtf.getD x 0]) ++ M ++ B := by simp
    have hlen : A.length + 1 = (A ++ [mtf.getD x 0]).length := by simp
    simp only [List.length_cons, InverseMoveToFrontTransform.loop, hget, hset]
    rw [hlen, ih]
    simp [InverseMoveToFrontTransform.run]

theorem InverseMoveToFrontTransform.loop_eq_run (v mtf : List Nat) :
    InverseMoveToFrontTransform.loop v.length 0 mtf v =
      InverseMoveToFrontTransform.run mtf v := by
  have h := InverseMoveToFrontTransform.loop_append [] v [] mtf
  simpa using h

theorem InverseMoveToFrontTransform_eq_run (v : List Nat) :
    InverseMoveToFrontTransform v (v.length : Int) =
      InverseMoveToFrontTransform.run (List.range 256) v := by
  simp [InverseMoveToFrontTransform, InverseMoveToFrontTransform.loop_eq_run]

theorem InverseMoveToFrontTransform.run_encode (table x : List Nat)
    (h : ∀ b ∈ x, b ∈ table) :
    InverseMoveToFrontTransform.run table (MoveToFrontEncode.go table x) = x := by
  induction x generalizing table with
  | nil => rfl
  | cons a x ih =>
    have ha : a ∈ table := h a (List.mem_cons_self _ _)
    have hlt : table.indexOf a < table.length := List.indexOf_lt_length.mpr ha
    have hget : table.getD (table.indexOf a) 0 = a := by
      rw [List.getD_eq_getElem _ _ hlt]; exact List.getElem_indexOf hlt
    have htab : (if table.indexOf a ≠ 0 then MoveToFront table (table.indexOf a) else table)
        = a :: table.erase a := by
      rw [← List.eraseIdx_indexOf_eq_erase]
      split
      · rw [MoveToFront_eq_cons_eraseIdx _ _ hlt, hget]
      · rename_i h0
        have h0 : table.indexOf a = 0 := by simpa using h0
        rw [h0] at hget ⊢
        cases table with
        | nil => simp at ha
        | cons t ts => simp at hget; simp [hget]
    simp only [MoveToFrontEncode.go, InverseMoveToFrontTransform.run, hget, htab]
    rw [ih]
    intro b hb
    by_cases hba : b = a
    · simp [hba]
    · exact List.mem_cons_of_mem _ ((List.mem_erase_of_ne hba).mpr (h b (List.mem_cons_of_mem _ hb)))

theorem MoveToFrontEncode.go_length (table x : List Nat) :
    (MoveToFrontEncode.go table x).length = x.length := by
  induction x generalizing table with
  | nil => rfl
  | cons a x ih => simp [MoveToFrontEncode.go, ih]

/-! ## Validation: lemmas -/

/-- Loop invariant of `VerifyContextMap`: after the entries `pre` have been
visited, `have_htree` marks exactly the values seen and `num_found` counts
the marks. -/
theorem VerifyContextMap.loop_spec (n : Nat) (rest pre : List Nat) (hv : List Bool) (nf : Nat)
    (hlen : hv.length = n) (hnf : nf = hv.count true)
    (hmem : ∀ k, k < n → (hv.getD k false = true ↔ k ∈ pre)) :
    match VerifyContextMap.loop n rest hv nf with
    | none => ∃ x ∈ rest, n ≤ x
    | some (hv1, nf1) =>
      (∀ x ∈ rest, x < n) ∧ hv1.length = n ∧ nf1 = hv1.count true ∧
        ∀ k, k < n → (hv1.getD k false = true ↔ k ∈ pre ++ rest) := by
  induction rest generalizing pre hv nf with
  | nil =>
    simp only [VerifyContextMap.loop]
    exact ⟨by simp, hlen, hnf, by simpa using hmem⟩
  | cons a rest ih =>
    unfold VerifyContextMap.loop
    by_cases ha : a ≥ n
    · simp only [ha, if_true]
      exact ⟨a, List.mem_cons_self _ _, ha⟩
    · have han : a < n := by omega
      have hal : a < hv.length := by omega
      simp only [ha, if_false]
      by_cases hseen : hv.getD a false = true
      · simp only [hseen, Bool.not_true, Bool.false_eq_true, if_false]
        have := ih (pre ++ [a]) hv nf hlen hnf (by
          intro k hk
          rw [hmem k hk]
          constructor
          · intro h; exact List.mem_append_left _ h
          · intro h
            rcases List.mem_append.mp h with h | h
            · exact h
            · have : k = a := by simpa using h
              subst this
              exact (hmem k hk).mp hseen)
        revert this
        cases VerifyContextMap.loop n rest hv nf with
        | none =>
          rintro ⟨x, hx, hxn⟩
          exact ⟨x, List.mem_cons_of_mem _ hx, hxn⟩
        | some r =>
          rintro ⟨h1, h2, h3, h4⟩
          refine ⟨?_, h2, h3, ?_⟩
          · intro x hx
            rcases List.mem_cons.mp hx with rfl | hx
            · exact han
            · exact h1 x hx
          · intro k hk
            rw [h4 k hk]; simp [List.append_assoc]
      · have hseen : hv.getD a false = false := by simpa using hseen
        simp only [hseen, Bool.not_false, if_true]
        have hget : hv[a] = false := by
          rw [List.getD_eq_getElem _ _ hal] at hseen; exact hseen
        have := ih (pre ++ [a]) (hv.set a true) (nf + 1) (by simpa using hlen) (by
          rw [List.count_set _ _ _ _ hal, hget, hnf]; simp) (by
          intro k hk
          have hkl : k < hv.length := by omega
          by_cases hka : k = a
          · subst hka; simp [hkl]
          · have hak : ¬ a = k := fun h => hka h.symm
            have := hmem k hk
            simp only [List.getD_eq_getElem?_getD] at this
            simp [List.getElem?_set, hak, hka, this])
        revert this
        cases VerifyContextMap.loop n rest (hv.set a true) (nf + 1) with
        | none =>
          rintro ⟨x, hx, hxn⟩
          exact ⟨x, List.mem_cons_of_mem _ hx, hxn⟩
        | some r =>
          rintro ⟨h1, h2, h3, h4⟩
          refine ⟨?_, h2, h3, ?_⟩
          · intro x hx
            rcases List.mem_cons.mp hx with rfl | hx
            · exact han
            · exact h1 x hx
          · intro k hk
            rw [h4 k hk]; simp [List.append_assoc]

/-- The validator accepts exactly the maps whose entries are below the count
and cover every index below the count. -/
theorem VerifyContextMap_eq_ok_iff (m : List Nat) (n : Nat) :
    VerifyContextMap m n = Status.ok ↔ (∀ x ∈ m, x < n) ∧ ∀ k, k < n → k ∈ m := by
  have h := VerifyContextMap.loop_spec n m [] (List.replicate n false) 0 (by simp)
    (by simp [List.count_replicate]) (by
      intro k hk
      simp [List.getElem?_replicate, hk])
  unfold VerifyContextMap
  revert h
  cases VerifyContextMap.loop n m (List.replicate n false) 0 with
  | none =>
    rintro ⟨x, hx, hxn⟩
    simp only [false_iff, reduceCtorEq]
    rintro ⟨h1, _⟩
    have := h1 x hx
    omega
  | some r =>
    obtain ⟨hv1, nf1⟩ := r
    rintro ⟨h1, h2, h3, h4⟩
    simp only [List.nil_append] at h4
    have hcount : nf1 = n ↔ ∀ k, k < n → k ∈ m := by
      rw [h3, ← h2, List.count_eq_length]
      constructor
      · intro hall k hk
        rw [← h4 k (by omega)]
        have hkl : k < hv1.length := hk
        rw [List.getD_eq_getElem _ _ hkl]
        exact (hall _ (List.getElem_mem _)).symm
      · intro hall b hb
        obtain ⟨k, hk, rfl⟩ := List.getElem_of_mem hb
        have := (h4 k (by omega)).mpr (hall k (by omega))
        rw [List.getD_eq_getElem _ _ hk] at this
        exact this.symm
    by_cases hn : nf1 = n
    · simp only [hn, ne_eq, not_true_eq_false, if_false, true_iff]
      exact ⟨h1, hcount.mp hn⟩
    · simp only [hn, ne_eq, not_false_eq_true, if_true, reduceCtorEq, false_iff]
      rintro ⟨_, h5⟩
      exact hn (hcount.mpr h5)

/-! ## Bit reader: lemmas -/

theorem bitsValue_lt (bs : List Bool) : bitsValue bs < 2 ^ bs.length := by
  induction bs with
  | nil => simp [bitsValue]
  | cons b bs ih =>
    have hb : b.toNat ≤ 1 := Bool.toNat_le b
    simp only [bitsValue, List.length_cons, pow_succ]
    omega

theorem encodeBits_bitsValue (bs : List Bool) : encodeBits bs.length (bitsValue bs) = bs := by
  induction bs with
  | nil => rfl
  | cons b bs ih =>
    have h1 : (b.toNat + 2 * bitsValue bs) / 2 = bitsValue bs := by
      have hb : b.toNat ≤ 1 := Bool.toNat_le b
      omega
    have h2 : ((b.toNat + 2 * bitsValue bs) % 2 == 1) = b := by
      cases b <;> simp [Nat.add_mul_mod_self_left]
    simp only [List.length_cons, encodeBits, bitsValue, h1, h2, ih]

theorem BitReader.window_length (br : BitReader) (p n : Nat) : (br.window p n).length = n := by
  simp [BitReader.window]

theorem BitReader.window_add (br : BitReader) (p m n : Nat) :
    br.window p (m + n) = br.window p m ++ br.window (p + m) n := by
  simp only [BitReader.window, List.range_add, List.map_append, List.map_map]
  congr 1
  apply List.map_congr_left
  intro k _
  simp [Nat.add_assoc]

/-! ## Simple path: lemmas -/

theorem DecodeContextMap.simpleLoop_append (w : Nat) (A M B : List Nat) (br : BitReader) :
    DecodeContextMap.simpleLoop w M.length A.length (A ++ M ++ B) br =
      (A ++ (List.range M.length).map
          (fun k => bitsValue (br.window (br.pos + w * k) w) % 256) ++ B,
       { br with pos := br.pos + w * M.length }) := by
  induction M generalizing A br with
  | nil => simp [DecodeContextMap.simpleLoop]
  | cons x M ih =>
    have hset : ∀ a : Nat, (A ++ x :: M ++ B).set A.length a = (A ++ [a]) ++ M ++ B := by
      intro a; simp
    have hlen : ∀ a : Nat, A.length + 1 = (A ++ [a]).length := by intro a; simp
    simp only [List.length_cons, DecodeContextMap.simpleLoop, hset]
    rw [hlen, ih]
    simp only [BitReader.ReadBits, List.range_succ_eq_map, List.map_cons, List.map_map,
      Nat.mul_zero, Nat.add_zero, List.append_assoc, List.singleton_append, List.cons_append]
    have hmap : (List.range M.length).map
          (fun k => bitsValue ((BitReader.mk br.bits (br.pos + w)).window
            (br.pos + w + w * k) w) % 256) =
        (List.range M.length).map
          ((fun k => bitsValue (br.window (br.pos + w * k) w) % 256) ∘ Nat.succ) := by
      apply List.map_congr_left
      intro k _
      simp only [Function.comp, Nat.mul_succ]
      have : br.pos + w + w * k = br.pos + (w * k + w) := by omega
      rw [this]
      rfl
    have hpos : br.pos + w + w * M.length = br.pos + w * (M.length + 1) := by
      rw [Nat.mul_succ]; omega
    rw [hmap, hpos]
    simp

theorem DecodeContextMap.simpleLoop_eq (w : Nat) (v : List Nat) (br : BitReader) :
    DecodeContextMap.simpleLoop w v.length 0 v br =
      ((List.range v.length).map (fun k => bitsValue (br.window (br.pos + w * k) w) % 256),
       { br with pos := br.pos + w * v.length }) := by
  have h := DecodeContextMap.simpleLoop_append w [] v [] br
  simpa using h

theorem encodeEntries_windows (w : Nat) (br : BitReader) (p n : Nat) :
    encodeEntries w ((List.range n).map (fun k => bitsValue (br.window (p + w * k) w))) =
      br.window p (w * n) := by
  induction n generalizing p with
  | zero => simp [encodeEntries, BitReader.window]
  | succ n ih =>
    have hw : encodeBits w (bitsValue (br.window p w)) = br.window p w := by
      have := encodeBits_bitsValue (br.window p w)
      rwa [BitReader.window_length] at this
    have hmap : (List.range n).map ((fun k => bitsValue (br.window (p + w * k) w)) ∘ Nat.succ) =
        (List.range n).map (fun k => bitsValue (br.window (p + w + w * k) w)) := by
      apply List.map_congr_left
      intro k _
      simp only [Function.comp, Nat.mul_succ]
      have : p + (w * k + w) = p + w + w * k := by omega
      rw [this]
    simp only [List.range_succ_eq_map, List.map_cons, List.map_map, encodeEntries,
      Nat.mul_zero, Nat.add_zero, hw, hmap, ih, Nat.mul_succ]
    rw [Nat.add_comm (w * n) w, BitReader.window_add]

/-! ## The final two statements: lemmas -/

theorem max_element_spec (l : List Nat) (m : Nat) (h : max_element l = some m) :
    m ∈ l ∧ ∀ x ∈ l, x ≤ m := by
  cases l with
  | nil => simp [max_element] at h
  | cons a l =>
    simp only [max_element, Option.some.injEq] at h
    subst h
    have key : ∀ (xs : List Nat) (x : Nat),
        (xs.foldl (fun largest y => if largest < y then y else largest) x = x ∨
          xs.foldl (fun largest y => if largest < y then y else largest) x ∈ xs) ∧
        x ≤ xs.foldl (fun largest y => if largest < y then y else largest) x ∧
        ∀ y ∈ xs, y ≤ xs.foldl (fun largest y => if largest < y then y else largest) x := by
      intro xs
      induction xs with
      | nil => intro x; simp
      | cons b xs ih =>
        intro x
        simp only [List.foldl_cons]
        obtain ⟨h1, h2, h3⟩ := ih (if x < b then b else x)
        refine ⟨?_, ?_, ?_⟩
        · rcases h1 with h1 | h1
          · by_cases hxb : x < b
            · simp only [hxb, if_true] at h1 ⊢
              right; rw [h1]; exact List.mem_cons_self _ _
            · simp only [hxb, if_false] at h1 ⊢
              left; exact h1
          · right; exact List.mem_cons_of_mem _ h1
        · by_cases hxb : x < b
          · simp only [hxb, if_true] at h2 ⊢; omega
          · simp only [hxb, if_false] at h2 ⊢; exact h2
        · intro y hy
          rcases List.mem_cons.mp hy with rfl | hy
          · by_cases hxb : x < y
            · simp only [hxb, if_true] at h2 ⊢; exact h2
            · simp only [hxb, if_false] at h2 ⊢; omega
          · exact h3 y hy
    obtain ⟨h1, h2, h3⟩ := key l a
    refine ⟨?_, ?_⟩
    · rcases h1 with h1 | h1
      · rw [h1]; exact List.mem_cons_self _ _
      · exact List.mem_cons_of_mem _ h1
    · intro x hx
      rcases List.mem_cons.mp hx with rfl | hx
      · exact h2
      · exact h3 x hx

theorem max_element_isSome (l : List Nat) (h : l ≠ []) : ∃ m, max_element l = some m := by
  cases l with
  | nil => exact absurd rfl h
  | cons a l => exact ⟨_, rfl⟩

theorem DecodeContextMap.finish_zeros (n num_htrees : Nat) (input : BitReader)
    (log : List Event) (hn : 0 < n) :
    DecodeContextMap.finish (List.replicate n 0) num_htrees input log =
      { status := Status.ok, context_map := List.replicate n 0, num_htrees := 1,
        input := input, log := log } := by
  have hne : List.replicate n 0 ≠ [] := by
    intro h
    have := congrArg List.length h
    simp at this
    omega
  obtain ⟨m, hm⟩ := max_element_isSome _ hne
  have hm0 : m = 0 := (List.mem_replicate.mp (max_element_spec _ _ hm).1).2
  subst hm0
  have hv : VerifyContextMap (List.replicate n 0) (0 + 1) = Status.ok := by
    rw [VerifyContextMap_eq_ok_iff]
    refine ⟨?_, ?_⟩
    · intro x hx
      have := (List.mem_replicate.mp hx).2
      omega
    · intro k hk
      have hk0 : k = 0 := by omega
      subst hk0
      exact List.mem_replicate.mpr ⟨by omega, rfl⟩
  simp only [DecodeContextMap.finish, hm, hv]

/-! ## General path: lemmas -/

/-- Invariant rule for the general-path loop: a property of the loop state
that holds on entry and is preserved by every iteration holds on exit, and
an exit without error is an exit through the loop condition. -/
theorem DecodeContextMap.loop_induction {C R : Type} (E : EntropyCoder C R)
    (dummy : List Nat) (P : LoopState R → Prop)
    (hbody : ∀ s, P s → s.status = Status.ok → s.i < s.context_map.length →
      P (DecodeContextMap.body E dummy s))
    (fuel : Nat) (s sF : LoopState R) (hP : P s) (hs : s.status = Status.ok)
    (h : DecodeContextMap.loop E dummy fuel s = some sF) :
    P sF ∧ (sF.status = Status.ok → ¬ sF.i < sF.context_map.length) := by
  induction fuel generalizing s with
  | zero =>
    unfold DecodeContextMap.loop at h
    split at h
    · simp at h
    · rename_i hi
      simp only [Option.some.injEq] at h
      subst h
      exact ⟨hP, fun _ => hi⟩
  | succ fuel ih =>
    unfold DecodeContextMap.loop at h
    split at h
    · rename_i hi
      simp only at h
      split at h
      · rename_i hok
        exact ih _ (hbody s hP hs hi) hok h
      · rename_i hnok
        simp only [Option.some.injEq] at h
        subst h
        exact ⟨hbody s hP hs hi, fun hok => absurd hok hnok⟩
    · rename_i hi
      simp only [Option.some.injEq] at h
      subst h
      exact ⟨hP, fun _ => hi⟩

theorem DecodeContextMap.body_length {C R : Type} (E : EntropyCoder C R) (dummy : List Nat)
    (s : LoopState R) :
    (DecodeContextMap.body E dummy s).context_map.length = s.context_map.length := by
  unfold DecodeContextMap.body
  simp only
  split_ifs <;> simp [storeByte]

/-- An iteration that ends without error is a zero run that does not
overflow or the store of a literal below `kMaxClusters`. -/
theorem DecodeContextMap.body_ok {C R : Type} (E : EntropyCoder C R) (dummy : List Nat)
    (s : LoopState R) (h : (DecodeContextMap.body E dummy s).status = Status.ok) :
    ((E.readSymbol s.reader s.input dummy).1.1 < 0 ∧
      -(E.readSymbol s.reader s.input dummy).1.1 + 1 ≤ INT32_MAX ∧
      (DecodeContextMap.body E dummy s).context_map = s.context_map ∧
      (DecodeContextMap.body E dummy s).i =
        (s.i + (-(E.readSymbol s.reader s.input dummy).1.1 + 1).toNat) % SIZE_MOD ∧
      (DecodeContextMap.body E dummy s).log =
        s.log ++ [Event.readSymbol (E.readSymbol s.reader s.input dummy).1.1]) ∨
    (0 ≤ (E.readSymbol s.reader s.input dummy).1.1 ∧
      (E.readSymbol s.reader s.input dummy).1.1 < (kMaxClusters : Int) ∧
      (DecodeContextMap.body E dummy s).context_map =
        s.context_map.set s.i ((E.readSymbol s.reader s.input dummy).1.1.toNat % 256) ∧
      (DecodeContextMap.body E dummy s).i = (s.i + 1) % SIZE_MOD ∧
      (DecodeContextMap.body E dummy s).log =
        s.log ++ [Event.readSymbol (E.readSymbol s.reader s.input dummy).1.1,
          Event.store s.i ((E.readSymbol s.reader s.input dummy).1.1.toNat % 256)]) := by
  unfold DecodeContextMap.body at h ⊢
  simp only at h ⊢
  by_cases h1 : (E.readSymbol s.reader s.input dummy).1.1 < 0
  · by_cases h2 : -(E.readSymbol s.reader s.input dummy).1.1 + 1 > INT32_MAX
    · simp [h1, h2] at h
    · left
      have h2a : -(E.readSymbol s.reader s.input dummy).1.1 + 1 ≤ INT32_MAX := by omega
      simp only [h1, h2, h2a, if_true, if_false, true_and]
      simp [EntropyCoder.readSymbol]
  · by_cases h3 : (E.readSymbol s.reader s.input dummy).1.1 ≥ (kMaxClusters : Int)
    · simp [h1, h3] at h
    · right
      have h1a : 0 ≤ (E.readSymbol s.reader s.input dummy).1.1 := by omega
      have h3a : (E.readSymbol s.reader s.input dummy).1.1 < (kMaxClusters : Int) := by omega
      simp only [h1, h3, h1a, h3a, if_false, true_and]
      simp [EntropyCoder.readSymbol, storeByte]

/-- Without wrap-around of `size_t` an iteration that ends without error
moves the cursor forward, by less than `2 ^ 31`. -/
theorem DecodeContextMap.body_cursor {C R : Type} (E : EntropyCoder C R) (dummy : List Nat)
    (s : LoopState R) (h : (DecodeContextMap.body E dummy s).status = Status.ok)
    (hi : s.i < 2 ^ 63) :
    s.i < (DecodeContextMap.body E dummy s).i ∧
      (DecodeContextMap.body E dummy s).i ≤ s.i + (2 ^ 31 - 1) := by
  rcases DecodeContextMap.body_ok E dummy s h with ⟨h1, h2, _, h4, _⟩ | ⟨_, _, _, h4, _⟩
  · rw [h4]
    simp only [INT32_MAX] at h2
    have hlt : s.i + (-(E.readSymbol s.reader s.input dummy).1.1 + 1).toNat < SIZE_MOD := by
      simp only [SIZE_MOD]; omega
    rw [Nat.mod_eq_of_lt hlt]
    omega
  · rw [h4]
    have hlt : s.i + 1 < SIZE_MOD := by simp only [SIZE_MOD]; omega
    rw [Nat.mod_eq_of_lt hlt]
    omega

/-- Termination: for a map shorter than `2 ^ 63` entries, as many
iterations as there are entries left suffice. -/
theorem DecodeContextMap.loop_total {C R : Type} (E : EntropyCoder C R) (dummy : List Nat)
    (fuel : Nat) (s : LoopState R) (hL : s.context_map.length < 2 ^ 63)
    (hfuel : s.context_map.length ≤ s.i + fuel) :
    ∃ sF, DecodeContextMap.loop E dummy fuel s = some sF := by
  induction fuel generalizing s with
  | zero =>
    unfold DecodeContextMap.loop
    have : ¬ s.i < s.context_map.length := by omega
    simp [this]
  | succ fuel ih =>
    unfold DecodeContextMap.loop
    by_cases hi : s.i < s.context_map.length
    · simp only [hi, if_true]
      by_cases hok : (DecodeContextMap.body E dummy s).status = Status.ok
      · simp only [hok, if_true]
        have hc := DecodeContextMap.body_cursor E dummy s hok (by omega)
        apply ih
        · rw [DecodeContextMap.body_length]; exact hL
        · rw [DecodeContextMap.body_length]; omega
      · simp [hok]
    · simp [hi]

/-- Every iteration appends to the log the symbol it read, followed by the
store it made when the symbol is an accepted literal; a literal of at least
`kMaxClusters` ends the iteration with "Invalid cluster ID". -/
theorem DecodeContextMap.body_log {C R : Type} (E : EntropyCoder C R) (dummy : List Nat)
    (s : LoopState R) :
    ∃ sym evs, (DecodeContextMap.body E dummy s).log = s.log ++ Event.readSymbol sym :: evs ∧
      (evs = [] ∨ ∃ v, evs = [Event.store s.i v]) ∧
      ((kMaxClusters : Int) ≤ sym →
        (DecodeContextMap.body E dummy s).status = Status.failure "Invalid cluster ID") := by
  refine ⟨(E.readSymbol s.reader s.input dummy).1.1, ?_⟩
  unfold DecodeContextMap.body
  simp only
  by_cases h1 : (E.readSymbol s.reader s.input dummy).1.1 < 0
  · have hk : ¬ (kMaxClusters : Int) ≤ (E.readSymbol s.reader s.input dummy).1.1 := by
      simp only [kMaxClusters]; omega
    by_cases h2 : -(E.readSymbol s.reader s.input dummy).1.1 + 1 > INT32_MAX
    · refine ⟨[], ?_, Or.inl rfl, fun h => absurd h hk⟩
      simp only [h1, h2, if_true]
      simp [EntropyCoder.readSymbol]
    · refine ⟨[], ?_, Or.inl rfl, fun h => absurd h hk⟩
      simp only [h1, h2, if_true, if_false]
      simp [EntropyCoder.readSymbol]
  · by_cases h3 : (E.readSymbol s.reader s.input dummy).1.1 ≥ (kMaxClusters : Int)
    · refine ⟨[], ?_, Or.inl rfl, fun _ => ?_⟩
      · simp only [h1, h3, if_true, if_false]
        simp [EntropyCoder.readSymbol]
      · simp only [h1, h3, if_true, if_false]
    · refine ⟨[Event.store s.i ((E.readSymbol s.reader s.input dummy).1.1.toNat % 256)], ?_,
        Or.inr ⟨_, rfl⟩, fun h => absurd h h3⟩
      simp only [h1, h3, if_false]
      simp [EntropyCoder.readSymbol, storeByte]

theorem DecodeContextMap.body_LogInv {C R : Type} (E : EntropyCoder C R) (dummy : List Nat)
    (dh : List Event) (s : LoopState R) (hP : DecodeContextMap.LogInv dh s)
    (hs : s.status = Status.ok) :
    DecodeContextMap.LogInv dh (DecodeContextMap.body E dummy s) := by
  obtain ⟨sym, evs, hlog, hevs, hbad⟩ := DecodeContextMap.body_log E dummy s
  obtain ⟨h1, h2, h3⟩ := hP
  refine ⟨?_, ?_, ?_⟩
  · intro sym1 hmem hge
    rw [hlog] at hmem
    rcases List.mem_append.mp hmem with hm | hm
    · have := h1 sym1 hm hge
      rw [hs] at this
      exact absurd this (by simp)
    · rcases List.mem_cons.mp hm with hm | hm
      · have : sym1 = sym := by simpa using hm
        subst this
        exact hbad hge
      · rcases hevs with rfl | ⟨v, rfl⟩
        · simp at hm
        · simp at hm
  · intro b hmem
    rw [hlog] at hmem
    rcases List.mem_append.mp hmem with hm | hm
    · exact h2 b hm
    · rcases List.mem_cons.mp hm with hm | hm
      · simp at hm
      · rcases hevs with rfl | ⟨v, rfl⟩
        · simp at hm
        · simp at hm
  · rw [hlog, List.filter_append, h3]
    rcases hevs with rfl | ⟨v, rfl⟩ <;> simp [Event.isDecodeHistograms]

theorem DecodeContextMap.loop_LogInv {C R : Type} (E : EntropyCoder C R) (dummy : List Nat)
    (dh : List Event) (fuel : Nat) (s sF : LoopState R) (hP : DecodeContextMap.LogInv dh s)
    (hs : s.status = Status.ok) (h : DecodeContextMap.loop E dummy fuel s = some sF) :
    DecodeContextMap.LogInv dh sF :=
  (DecodeContextMap.loop_induction E dummy (DecodeContextMap.LogInv dh)
    (fun t hP ht _ => DecodeContextMap.body_LogInv E dummy dh t hP ht) fuel s sF hP hs h).1

/-- Cursor invariant of the general-path loop for a map of `L < 2 ^ 63`
entries: the length is unchanged and the cursor is at most
`L + 2 ^ 31 - 2`. -/
theorem DecodeContextMap.loop_cursor {C R : Type} (E : EntropyCoder C R) (dummy : List Nat)
    (fuel L : Nat) (s sF : LoopState R) (hL : L < 2 ^ 63) (hlen : s.context_map.length = L)
    (hi : s.i ≤ L + (2 ^ 31 - 2)) (hs : s.status = Status.ok)
    (h : DecodeContextMap.loop E dummy fuel s = some sF) :
    sF.context_map.length = L ∧ sF.i ≤ L + (2 ^ 31 - 2) ∧ (sF.status = Status.ok → L ≤ sF.i) := by
  have := DecodeContextMap.loop_induction E dummy
    (fun t => t.context_map.length = L ∧ t.i ≤ L + (2 ^ 31 - 2))
    (by
      intro t ⟨ht1, ht2⟩ hts hti
      refine ⟨by rw [DecodeContextMap.body_length]; exact ht1, ?_⟩
      by_cases hok : (DecodeContextMap.body E dummy t).status = Status.ok
      · have := DecodeContextMap.body_cursor E dummy t hok (by omega)
        omega
      · have hsame : (DecodeContextMap.body E dummy t).i = t.i := by
          unfold DecodeContextMap.body at hok ⊢
          simp only at hok ⊢
          split_ifs at hok ⊢ <;> first | rfl | (exfalso; exact hok hts)
        omega)
    fuel s sF ⟨hlen, hi⟩ hs h
  obtain ⟨⟨h1, h2⟩, h3⟩ := this
  refine ⟨h1, h2, fun hok => ?_⟩
  have := h3 hok
  omega

/-- The ways `DecodeContextMap` can return on the general path. -/
theorem DecodeContextMap_general_cases {C R : Type} (E : EntropyCoder C R)
    (context_map : List Nat) (num_htrees : Nat) (input : BitReader) (r : DecodeResult)
    (hmode : (input.ReadFixedBits 1).1 = 0)
    (h : DecodeContextMap E context_map num_htrees input = some r) :
    ((E.DecodeHistograms (input.ReadFixedBits 1).2 1 (decide (context_map.length ≤ 2))).1
        ≠ Status.ok ∧
      r = { status :=
              (E.DecodeHistograms (input.ReadFixedBits 1).2 1
                (decide (context_map.length ≤ 2))).1,
            context_map := context_map, num_htrees := num_htrees,
            input :=
              (E.DecodeHistograms (input.ReadFixedBits 1).2 1
                (decide (context_map.length ≤ 2))).2.2.2,
            log := [Event.decodeHistograms 1 (decide (context_map.length ≤ 2))] }) ∨
    ((E.DecodeHistograms (input.ReadFixedBits 1).2 1 (decide (context_map.length ≤ 2))).1
        = Status.ok ∧
      ∃ sF : LoopState R,
        DecodeContextMap.loop E
          (E.DecodeHistograms (input.ReadFixedBits 1).2 1
            (decide (context_map.length ≤ 2))).2.2.1
          context_map.length
          { status := Status.ok, context_map := context_map, i := 0,
            reader := (E.newReader
              (E.DecodeHistograms (input.ReadFixedBits 1).2 1
                (decide (context_map.length ≤ 2))).2.1
              (E.DecodeHistograms (input.ReadFixedBits 1).2 1
                (decide (context_map.length ≤ 2))).2.2.2).1,
            input := (E.newReader
              (E.DecodeHistograms (input.ReadFixedBits 1).2 1
                (decide (context_map.length ≤ 2))).2.1
              (E.DecodeHistograms (input.ReadFixedBits 1).2 1
                (decide (context_map.length ≤ 2))).2.2.2).2,
            log := [Event.decodeHistograms 1 (decide (context_map.length ≤ 2))] } = some sF ∧
        ((sF.status ≠ Status.ok ∧
            r = { status := sF.status, context_map := sF.context_map, num_htrees := num_htrees,
                  input := sF.input, log := sF.log }) ∨
          (sF.status = Status.ok ∧ E.CheckANSFinalState sF.reader = false ∧
            r = { status := Status.failure "Invalid context map",
                  context_map := sF.context_map, num_htrees := num_htrees,
                  input := sF.input, log := sF.log ++ [Event.checkFinalState false] }) ∨
          (sF.status = Status.ok ∧ E.CheckANSFinalState sF.reader = true ∧
            r = DecodeContextMap.finish
                  (InverseMoveToFrontTransform sF.context_map (toInt32 sF.context_map.length))
                  num_htrees sF.input (sF.log ++ [Event.checkFinalState true])))) := by
  have hb : ((input.ReadFixedBits 1).1 != 0) = false := by simp [hmode]
  unfold DecodeContextMap at h
  simp only [hb, Bool.false_eq_true, if_false, EntropyCoder.callDecodeHistograms] at h
  split at h
  · rename_i hst
    left
    simp only [Option.some.injEq] at h
    exact ⟨hst, h.symm⟩
  · rename_i hst
    right
    refine ⟨by simpa using hst, ?_⟩
    split at h
    · simp at h
    · rename_i sF hloop
      refine ⟨sF, hloop, ?_⟩
      split at h
      · rename_i hs
        left
        simp only [Option.some.injEq] at h
        exact ⟨hs, h.symm⟩
      · rename_i hs
        right
        have hs : sF.status = Status.ok := by simpa using hs
        cases hfin : E.CheckANSFinalState sF.reader with
        | false =>
          left
          simp only [hfin, Bool.not_false, if_true, Option.some.injEq] at h
          exact ⟨hs, rfl, h.symm⟩
        | true =>
          right
          simp only [hfin, Bool.not_true, Bool.false_eq_true, if_false, Option.some.injEq] at h
          exact ⟨hs, rfl, h.symm⟩

theorem DecodeContextMap.finish_log (v : List Nat) (num_htrees : Nat) (input : BitReader)
    (log : List Event) : (DecodeContextMap.finish v num_htrees input log).log = log := by
  unfold DecodeContextMap.finish; split <;> rfl

theorem DecodeContextMap.finish_context_map (v : List Nat) (num_htrees : Nat)
    (input : BitReader) (log : List Event) :
    (DecodeContextMap.finish v num_htrees input log).context_map = v := by
  unfold DecodeContextMap.finish; split <;> rfl

/-- Totality of the embedding: for a map shorter than `2 ^ 63` entries the
iteration bound of the general-path loop is never reached. -/
theorem DecodeContextMap_total {C R : Type} (E : EntropyCoder C R)
    (context_map : List Nat) (num_htrees : Nat) (input : BitReader)
    (hL : context_map.length < 2 ^ 63) :
    ∃ r, DecodeContextMap E context_map num_htrees input = some r := by
  unfold DecodeContextMap
  simp only
  split
  · exact ⟨_, rfl⟩
  · split
    · exact ⟨_, rfl⟩
    · obtain ⟨sF, hsF⟩ := DecodeContextMap.loop_total E
        (E.callDecodeHistograms (input.ReadFixedBits 1).2 1
          (decide (context_map.length ≤ 2))).1.2.2.1
        context_map.length
        { status := Status.ok, context_map := context_map, i := 0,
          reader := (E.newReader
            (E.callDecodeHistograms (input.ReadFixedBits 1).2 1
              (decide (context_map.length ≤ 2))).1.2.1
            (E.callDecodeHistograms (input.ReadFixedBits 1).2 1
              (decide (context_map.length ≤ 2))).1.2.2.2).1,
          input := (E.newReader
            (E.callDecodeHistograms (input.ReadFixedBits 1).2 1
              (decide (context_map.length ≤ 2))).1.2.1
            (E.callDecodeHistograms (input.ReadFixedBits 1).2 1
              (decide (context_map.length ≤ 2))).1.2.2.2).2,
          log := [(E.callDecodeHistograms (input.ReadFixedBits 1).2 1
              (decide (context_map.length ≤ 2))).2] }
        hL (by simp)
      rw [hsF]
      simp only
      split
      · exact ⟨_, rfl⟩
      · split <;> exact ⟨_, rfl⟩

/-- The loop does not depend on the histogram decoder. -/
theorem DecodeContextMap.loop_congr {C R : Type} (E : EntropyCoder C R)
    (f : BitReader → Nat → Bool → Status × C × List Nat × BitReader) (dummy : List Nat)
    (fuel : Nat) (s : LoopState R) :
    DecodeContextMap.loop { E with DecodeHistograms := f } dummy fuel s =
      DecodeContextMap.loop E dummy fuel s := by
  induction fuel generalizing s with
  | zero => rfl
  | succ fuel ih =>
    unfold DecodeContextMap.loop
    have hbody : DecodeContextMap.body { E with DecodeHistograms := f } dummy s =
        DecodeContextMap.body E dummy s := rfl
    simp only [hbody, ih]

/-- An iteration that ends with an error leaves the buffer and the cursor
as they were. -/
theorem DecodeContextMap.body_error {C R : Type} (E : EntropyCoder C R) (dummy : List Nat)
    (s : LoopState R) (hs : s.status = Status.ok)
    (h : (DecodeContextMap.body E dummy s).status ≠ Status.ok) :
    (DecodeContextMap.body E dummy s).context_map = s.context_map ∧
      (DecodeContextMap.body E dummy s).i = s.i := by
  unfold DecodeContextMap.body at h ⊢
  simp only at h ⊢
  split_ifs at h ⊢ <;> first | exact ⟨rfl, rfl⟩ | (exfalso; exact h hs)

/-- An iteration started without error ends without error when the symbol
is a zero run that does not overflow or a literal below `kMaxClusters`. -/
theorem DecodeContextMap.body_status {C R : Type} (E : EntropyCoder C R) (dummy : List Nat)
    (s : LoopState R) (hs : s.status = Status.ok)
    (h : ((E.readSymbol s.reader s.input dummy).1.1 < 0 ∧
          INT32_MIN + 1 < (E.readSymbol s.reader s.input dummy).1.1) ∨
        (0 ≤ (E.readSymbol s.reader s.input dummy).1.1 ∧
          (E.readSymbol s.reader s.input dummy).1.1 < (kMaxClusters : Int))) :
    (DecodeContextMap.body E dummy s).status = Status.ok := by
  unfold DecodeContextMap.body
  simp only
  rcases h with ⟨h1, h2⟩ | ⟨h1, h2⟩
  · have h3 : ¬ -(E.readSymbol s.reader s.input dummy).1.1 + 1 > INT32_MAX := by
      simp only [INT32_MIN, INT32_MAX] at h2 ⊢; omega
    simp only [h1, h3, if_true, if_false]
    exact hs
  · have h3 : ¬ (E.readSymbol s.reader s.input dummy).1.1 < 0 := by omega
    have h4 : ¬ (E.readSymbol s.reader s.input dummy).1.1 ≥ (kMaxClusters : Int) := by omega
    simp only [h3, h4, if_false]
    exact hs

/-! ## Byte buffers: lemmas -/

theorem IsBytes.getD {v : List Nat} (h : IsBytes v) (i : Nat) : v.getD i 0 < 256 := by
  by_cases hi : i < v.length
  · rw [List.getD_eq_getElem _ _ hi]
    exact h _ (List.getElem_mem _)
  · rw [List.getD_eq_default _ _ (by omega)]
    omega

theorem IsBytes.set {v : List Nat} (h : IsBytes v) (i a : Nat) (ha : a < 256) :
    IsBytes (v.set i a) := by
  intro x hx
  rcases List.mem_or_eq_of_mem_set hx with hx | hx
  · exact h x hx
  · rw [hx]; exact ha

theorem MoveToFront.shift_isBytes (v : List Nat) (i : Nat) (h : IsBytes v) :
    IsBytes (MoveToFront.shift v i) := by
  induction i generalizing v with
  | zero => exact h
  | succ i ih => exact ih _ (h.set _ _ (h.getD i))

theorem MoveToFront_isBytes (v : List Nat) (index : Nat) (h : IsBytes v) :
    IsBytes (MoveToFront v index) :=
  (MoveToFront.shift_isBytes v index h).set _ _ (h.getD index)

theorem InverseMoveToFrontTransform.loop_bytes (n i : Nat) (mtf v : List Nat)
    (hm : IsBytes mtf) (hv : IsBytes v) :
    IsBytes (InverseMoveToFrontTransform.loop n i mtf v) := by
  induction n generalizing i mtf v with
  | zero => exact hv
  | succ n ih =>
    unfold InverseMoveToFrontTransform.loop
    simp only
    apply ih
    · split
      · exact MoveToFront_isBytes _ _ hm
      · exact hm
    · exact hv.set _ _ (hm.getD _)

theorem InverseMoveToFrontTransform.loop_length (n i : Nat) (mtf v : List Nat) :
    (InverseMoveToFrontTransform.loop n i mtf v).length = v.length := by
  induction n generalizing i mtf v with
  | zero => rfl
  | succ n ih =>
    unfold InverseMoveToFrontTransform.loop
    simp only [ih, List.length_set]

theorem InverseMoveToFrontTransform_isBytes (v : List Nat) (v_len : Int) (hv : IsBytes v) :
    IsBytes (InverseMoveToFrontTransform v v_len) := by
  apply InverseMoveToFrontTransform.loop_bytes _ _ _ _ _ hv
  intro x hx
  have := List.mem_range.mp hx
  omega

theorem InverseMoveToFrontTransform_length (v : List Nat) (v_len : Int) :
    (InverseMoveToFrontTransform v v_len).length = v.length :=
  InverseMoveToFrontTransform.loop_length _ _ _ _

/-- The general-path loop keeps the buffer a byte buffer of the same
length. -/
theorem DecodeContextMap.loop_isBytes {C R : Type} (E : EntropyCoder C R) (dummy : List Nat)
    (fuel : Nat) (s sF : LoopState R) (hb : IsBytes s.context_map)
    (hs : s.status = Status.ok) (h : DecodeContextMap.loop E dummy fuel s = some sF) :
    IsBytes sF.context_map ∧ sF.context_map.length = s.context_map.length := by
  have := DecodeContextMap.loop_induction E dummy
    (fun t => IsBytes t.context_map ∧ t.context_map.length = s.context_map.length)
    (by
      intro t ⟨ht1, ht2⟩ hts _
      refine ⟨?_, by rw [DecodeContextMap.body_length]; exact ht2⟩
      by_cases hok : (DecodeContextMap.body E dummy t).status = Status.ok
      · rcases DecodeContextMap.body_ok E dummy t hok with ⟨_, _, h3, _⟩ | ⟨_, _, h3, _⟩
        · rw [h3]; exact ht1
        · rw [h3]; exact ht1.set _ _ (Nat.mod_lt _ (by omega))
      · rw [(DecodeContextMap.body_error E dummy t hts hok).1]; exact ht1)
    fuel s sF ⟨hb, rfl⟩ hs h
  exact this.1

/-- What a successful validation at the end of `DecodeContextMap` gives. -/
theorem DecodeContextMap.finish_ok (v : List Nat) (num_htrees : Nat) (input : BitReader)
    (log : List Event) (hv : IsBytes v)
    (hok : (DecodeContextMap.finish v num_htrees input log).status = Status.ok) :
    ∃ m, m ∈ v ∧ (∀ x ∈ v, x ≤ m) ∧ m < 256 ∧ (∀ k, k ≤ m → k ∈ v) ∧
      DecodeContextMap.finish v num_htrees input log =
        { status := Status.ok, context_map := v, num_htrees := m + 1, input := input,
          log := log } := by
  unfold DecodeContextMap.finish at hok ⊢
  split at hok
  · simp at hok
  · rename_i m hm
    simp only at hok
    obtain ⟨h1, h2⟩ := max_element_spec v m hm
    have h3 := (VerifyContextMap_eq_ok_iff v (m + 1)).mp hok
    refine ⟨m, h1, h2, hv m h1, fun k hk => h3.2 k (by omega), ?_⟩
    simp only [hm, hok]

/-- The way `DecodeContextMap` returns on the simple path. -/
theorem DecodeContextMap_simple_cases {C R : Type} (E : EntropyCoder C R)
    (context_map : List Nat) (num_htrees : Nat) (input : BitReader)
    (hmode : (input.ReadFixedBits 1).1 ≠ 0) :
    ∃ v inp, IsBytes v ∧ v.length = context_map.length ∧
      DecodeContextMap E context_map num_htrees input =
        some (DecodeContextMap.finish v num_htrees inp []) := by
  have hb : ((input.ReadFixedBits 1).1 != 0) = true := by simpa using hmode
  unfold DecodeContextMap
  simp only [hb, if_true]
  split
  · rw [DecodeContextMap.simpleLoop_eq]
    refine ⟨_, _, ?_, ?_, rfl⟩
    · intro x hx
      obtain ⟨k, _, rfl⟩ := List.mem_map.mp hx
      exact Nat.mod_lt _ (by omega)
    · simp
  · refine ⟨_, _, ?_, ?_, rfl⟩
    · intro x hx
      obtain ⟨k, _, rfl⟩ := List.mem_map.mp hx
      omega
    · simp

/-! ## Move-to-front table: lemmas -/

/-- The transform of a concatenation: the second part is decoded with the
table left by the first part. -/
theorem InverseMoveToFrontTransform.run_append (mtf a b : List Nat) :
    InverseMoveToFrontTransform.run mtf (a ++ b) =
      InverseMoveToFrontTransform.run mtf a ++
        InverseMoveToFrontTransform.run (InverseMoveToFrontTransform.tableAfter mtf a) b := by
  induction a generalizing mtf with
  | nil => rfl
  | cons x a ih =>
    rw [List.cons_append]
    simp only [InverseMoveToFrontTransform.run, InverseMoveToFrontTransform.tableAfter, ih,
      List.cons_append]

/-- Moving an entry to the front permutes the table. -/
theorem MoveToFront_perm (v : List Nat) (index : Nat) (hi : index < v.length) :
    (MoveToFront v index).Perm v := by
  rw [MoveToFront_eq_cons_eraseIdx v index hi, List.eraseIdx_eq_take_drop_succ,
    List.getD_eq_getElem _ _ hi]
  have h1 : v = v.take index ++ v[index] :: v.drop (index + 1) := by
    rw [← List.drop_eq_getElem_cons hi, List.take_append_drop]
  conv_rhs => rw [h1]
  exact List.perm_middle.symm

/-- Entries behind the moved one keep their place. -/
theorem MoveToFront_drop (v : List Nat) (index k : Nat) (hi : index < v.length)
    (hk : index < k) : (MoveToFront v index).drop k = v.drop k := by
  apply List.ext_getElem?
  intro j
  rw [List.getElem?_drop, List.getElem?_drop, MoveToFront_getElem? v index hi]
  have h1 : ¬ k + j = 0 := by omega
  have h2 : ¬ k + j ≤ index := by omega
  simp only [h1, h2, if_false]

/-- Table invariant for symbols below `k`: the table is a permutation of
`0..255` whose entries from position `k` on are still the initial ones, so
its first `k` entries are a permutation of `0..k-1`. -/
theorem InverseMoveToFrontTransform.tableAfter_perm (k : Nat) (mtf v : List Nat)
    (hperm : mtf.Perm (List.range 256)) (hdrop : mtf.drop k = (List.range 256).drop k)
    (hv : ∀ x ∈ v, x < k) (hk : k ≤ 256) :
    (InverseMoveToFrontTransform.tableAfter mtf v).Perm (List.range 256) ∧
      (InverseMoveToFrontTransform.tableAfter mtf v).drop k = (List.range 256).drop k := by
  induction v generalizing mtf with
  | nil => exact ⟨hperm, hdrop⟩
  | cons x v ih =>
    have hx : x < k := hv x (List.mem_cons_self _ _)
    have hlen : mtf.length = 256 := by rw [hperm.length_eq]; simp
    unfold InverseMoveToFrontTransform.tableAfter
    apply ih
    · split
      · exact (MoveToFront_perm mtf x (by omega)).trans hperm
      · exact hperm
    · split
      · rw [MoveToFront_drop mtf x k (by omega) hx]; exact hdrop
      · exact hdrop
    · intro y hy
      exact hv y (List.mem_cons_of_mem _ hy)

/-- From the table invariant: the first `k` entries are a permutation of
`0..k-1`. -/
theorem take_perm_range (k : Nat) (mtf : List Nat) (hperm : mtf.Perm (List.range 256))
    (hdrop : mtf.drop k = (List.range 256).drop k) (hk : k ≤ 256) :
    (mtf.take k).Perm (List.range k) := by
  have h1 : (mtf.take k ++ mtf.drop k).Perm
      ((List.range 256).take k ++ (List.range 256).drop k) := by
    rw [List.take_append_drop, List.take_append_drop]; exact hperm
  rw [hdrop] at h1
  have h2 := (List.perm_append_right_iff _).mp h1
  rw [List.take_range, Nat.min_eq_left hk] at h2
  exact h2

/-- Under the table invariant an index below `k` selects a value below
`k`. -/
theorem getD_lt_of_table (k index : Nat) (mtf : List Nat)
    (hperm : mtf.Perm (List.range 256)) (hdrop : mtf.drop k = (List.range 256).drop k)
    (hk : k ≤ 256) (hi : index < k) : mtf.getD index 0 < k := by
  have hlen : mtf.length = 256 := by rw [hperm.length_eq]; simp
  have hil : index < mtf.length := by omega
  have hmem : mtf[index] ∈ mtf.take k := by
    rw [List.mem_take_iff_getElem]
    exact ⟨index, by rw [Nat.lt_min]; exact ⟨hi, hil⟩, rfl⟩
  have := (take_perm_range k mtf hperm hdrop hk).mem_iff.mp hmem
  rw [List.getD_eq_getElem _ _ hil]
  exact List.mem_range.mp this

theorem InverseMoveToFrontTransform.run_lt (k : Nat) (mtf v : List Nat)
    (hperm : mtf.Perm (List.range 256)) (hdrop : mtf.drop k = (List.range 256).drop k)
    (hv : ∀ x ∈ v, x < k) (hk : k ≤ 256) :
    ∀ y ∈ InverseMoveToFrontTransform.run mtf v, y < k := by
  induction v generalizing mtf with
  | nil => intro y hy; simp [InverseMoveToFrontTransform.run] at hy
  | cons x v ih =>
    have hx : x < k := hv x (List.mem_cons_self _ _)
    have hstep := InverseMoveToFrontTransform.tableAfter_perm k mtf [x] hperm hdrop
      (by intro y hy; rw [List.mem_singleton] at hy; rw [hy]; exact hx) hk
    simp only [InverseMoveToFrontTransform.tableAfter] at hstep
    intro y hy
    simp only [InverseMoveToFrontTransform.run, List.mem_cons] at hy
    rcases hy with hy | hy
    · rw [hy]; exact getD_lt_of_table k x mtf hperm hdrop hk hx
    · exact ih _ hstep.1 hstep.2 (fun z hz => hv z (List.mem_cons_of_mem _ hz)) y hy

theorem InverseMoveToFrontTransform.run_length (mtf v : List Nat) :
    (InverseMoveToFrontTransform.run mtf v).length = v.length := by
  induction v generalizing mtf with
  | nil => rfl
  | cons x v ih => simp [InverseMoveToFrontTransform.run, ih]

/-- After an entry has been decoded the front of the table is the value
just written. -/
theorem MoveToFront_front (mtf : List Nat) (a : Nat) (h : 0 < mtf.length) :
    (if a ≠ 0 then MoveToFront mtf a else mtf).getD 0 0 = mtf.getD a 0 := by
  by_cases ha : a = 0
  · simp [ha]
  · have hl : 0 < (MoveToFront.shift mtf a).length := by
      rw [MoveToFront.shift_length]; exact h
    simp only [ne_eq, ha, not_false_eq_true, if_true, MoveToFront]
    rw [List.getD_eq_getElem _ _ (by simpa using hl)]
    simp

theorem InverseMoveToFrontTransform.run_zero_repeat (e mtf : List Nat) (i : Nat)
    (h : 0 < mtf.length) (hz : e[i + 1]? = some 0) :
    (InverseMoveToFrontTransform.run mtf e)[i + 1]? =
      (InverseMoveToFrontTransform.run mtf e)[i]? := by
  induction i generalizing e mtf with
  | zero =>
    match e, hz with
    | a :: b :: rest, hz =>
      have hb : b = 0 := by simpa using hz
      subst hb
      simp only [InverseMoveToFrontTransform.run, List.getElem?_cons_succ,
        List.getElem?_cons_zero, Option.some.injEq]
      exact MoveToFront_front mtf a h
  | succ i ih =>
    match e, hz with
    | a :: e1, hz =>
      have hz1 : e1[i + 1]? = some 0 := by simpa using hz
      have hl : 0 < (if a ≠ 0 then MoveToFront mtf a else mtf).length := by
        split
        · rw [MoveToFront_length]; exact h
        · exact h
      simp only [InverseMoveToFrontTransform.run, List.getElem?_cons_succ]
      exact ih e1 _ hl hz1

theorem InverseMoveToFrontTransform.run_zeros (e mtf : List Nat) (hz : ∀ x ∈ e, x = 0) :
    ∀ y ∈ InverseMoveToFrontTransform.run mtf e, y = mtf.getD 0 0 := by
  induction e with
  | nil => intro y hy; simp [InverseMoveToFrontTransform.run] at hy
  | cons a e ih =>
    have ha : a = 0 := hz a (List.mem_cons_self _ _)
    subst ha
    intro y hy
    simp only [InverseMoveToFrontTransform.run, ne_eq, not_true_eq_false, if_false,
      List.mem_cons] at hy
    rcases hy with hy | hy
    · exact hy
    · exact ih (fun x hx => hz x (List.mem_cons_of_mem _ hx)) y hy

/-! ## General path: stores and reads -/

/-- Store invariant of the general-path loop: the buffer keeps its length,
every logged store is inside the buffer, and a position without a logged
store holds the value it had in `cm0`. -/
theorem DecodeContextMap.loop_stores {C R : Type} (E : EntropyCoder C R) (dummy : List Nat)
    (cm0 : List Nat) (fuel : Nat) (s sF : LoopState R)
    (hlen : s.context_map.length = cm0.length)
    (hin : ∀ i v, Event.store i v ∈ s.log → i < cm0.length)
    (hsame : ∀ j, (∀ v, Event.store j v ∉ s.log) → s.context_map[j]? = cm0[j]?)
    (hs : s.status = Status.ok) (h : DecodeContextMap.loop E dummy fuel s = some sF) :
    sF.context_map.length = cm0.length ∧
      (∀ i v, Event.store i v ∈ sF.log → i < cm0.length) ∧
      (∀ j, (∀ v, Event.store j v ∉ sF.log) → sF.context_map[j]? = cm0[j]?) := by
  have := DecodeContextMap.loop_induction E dummy
    (fun t => t.context_map.length = cm0.length ∧
      (∀ i v, Event.store i v ∈ t.log → i < cm0.length) ∧
      (∀ j, (∀ v, Event.store j v ∉ t.log) → t.context_map[j]? = cm0[j]?))
    (by
      intro t ⟨ht1, ht2, ht3⟩ hts hti
      obtain ⟨sym, evs, hlog, hevs, _⟩ := DecodeContextMap.body_log E dummy t
      refine ⟨by rw [DecodeContextMap.body_length]; exact ht1, ?_, ?_⟩
      · intro i v hm
        rw [hlog] at hm
        rcases List.mem_append.mp hm with hm | hm
        · exact ht2 i v hm
        · rcases List.mem_cons.mp hm with hm | hm
          · simp at hm
          · rcases hevs with rfl | ⟨w, rfl⟩
            · simp at hm
            · simp only [List.mem_singleton, Event.store.injEq] at hm
              omega
      · intro j hj
        have hold : ∀ v, Event.store j v ∉ t.log := by
          intro v hm
          apply hj v
          rw [hlog]
          exact List.mem_append_left _ hm
        by_cases hok : (DecodeContextMap.body E dummy t).status = Status.ok
        · rcases DecodeContextMap.body_ok E dummy t hok with
            ⟨_, _, h3, _⟩ | ⟨_, _, h3, _, h5⟩
          · rw [h3]; exact ht3 j hold
          · have hne : ¬ t.i = j := by
              intro hij
              apply hj ((E.readSymbol t.reader t.input dummy).1.1.toNat % 256)
              rw [h5, ← hij]
              simp
            rw [h3, List.getElem?_set]
            simp only [hne, if_false]
            exact ht3 j hold
        · rw [(DecodeContextMap.body_error E dummy t hts hok).1]
          exact ht3 j hold)
    fuel s sF ⟨hlen, hin, hsame⟩ hs h
  exact this.1

/-- Read invariant of the general-path loop: the number of symbols read is
at most the length of the map, and at most the cursor while no error has
occurred (map shorter than `2 ^ 63` entries). -/
theorem DecodeContextMap.loop_reads {C R : Type} (E : EntropyCoder C R) (dummy : List Nat)
    (fuel L : Nat) (s sF : LoopState R) (hL : L < 2 ^ 63)
    (hlen : s.context_map.length = L)
    (hr : (s.log.filter Event.isReadSymbol).length ≤ s.i)
    (hrL : (s.log.filter Event.isReadSymbol).length ≤ L)
    (hs : s.status = Status.ok) (h : DecodeContextMap.loop E dummy fuel s = some sF) :
    (sF.log.filter Event.isReadSymbol).length ≤ L := by
  have := DecodeContextMap.loop_induction E dummy
    (fun t => t.context_map.length = L ∧
      (t.log.filter Event.isReadSymbol).length ≤ L ∧
      (t.status = Status.ok → (t.log.filter Event.isReadSymbol).length ≤ t.i))
    (by
      intro t ⟨ht1, ht2, ht3⟩ hts hti
      obtain ⟨sym, evs, hlog, hevs, _⟩ := DecodeContextMap.body_log E dummy t
      have hcount : ((DecodeContextMap.body E dummy t).log.filter Event.isReadSymbol).length =
          (t.log.filter Event.isReadSymbol).length + 1 := by
        rw [hlog]
        rcases hevs with rfl | ⟨w, rfl⟩ <;>
          simp [List.filter_append, List.filter_cons, Event.isReadSymbol]
      have h3 := ht3 hts
      refine ⟨by rw [DecodeContextMap.body_length]; exact ht1, by omega, ?_⟩
      intro hok
      have := DecodeContextMap.body_cursor E dummy t hok (by omega)
      omega)
    fuel s sF ⟨hlen, hrL, fun _ => hr⟩ hs h
  exact this.1.2.1

/-- With every entry below the count the validator does not take the
"Invalid histogram index" branch. -/
theorem VerifyContextMap_cases (m : List Nat) (n : Nat) (h : ∀ x ∈ m, x < n) :
    VerifyContextMap m n = Status.ok ∨
      VerifyContextMap m n = Status.failure "Incomplete context map." := by
  have hspec := VerifyContextMap.loop_spec n m [] (List.replicate n false) 0 (by simp)
    (by simp [List.count_replicate]) (by
      intro k hk
      simp [List.getElem?_replicate, hk])
  unfold VerifyContextMap
  revert hspec
  cases VerifyContextMap.loop n m (List.replicate n false) 0 with
  | none =>
    rintro ⟨x, hx, hxn⟩
    have := h x hx
    omega
  | some r =>
    intro _
    simp only
    split
    · right; rfl
    · left; rfl

/-! ## General path: streams without overflowing symbols -/

/-- An iteration that reads a symbol of at least `INT32_MIN + 2` ends
without error or with "Invalid cluster ID". -/
theorem DecodeContextMap.body_defined {C R : Type} (E : EntropyCoder C R) (dummy : List Nat)
    (s : LoopState R) (hs : s.status = Status.ok)
    (hsym : INT32_MIN + 1 < (E.readSymbol s.reader s.input dummy).1.1) :
    (DecodeContextMap.body E dummy s).status = Status.ok ∨
      ((kMaxClusters : Int) ≤ (E.readSymbol s.reader s.input dummy).1.1 ∧
        (DecodeContextMap.body E dummy s).status = Status.failure "Invalid cluster ID" ∧
        (DecodeContextMap.body E dummy s).i = s.i) := by
  by_cases hk : (kMaxClusters : Int) ≤ (E.readSymbol s.reader s.input dummy).1.1
  · right
    have h1 : ¬ (E.readSymbol s.reader s.input dummy).1.1 < 0 := by
      simp only [kMaxClusters] at hk; omega
    refine ⟨hk, ?_, ?_⟩
    · unfold DecodeContextMap.body
      simp only [h1, if_false, ge_iff_le, hk, if_true]
    · unfold DecodeContextMap.body
      simp only [h1, if_false, ge_iff_le, hk, if_true]
  · left
    apply DecodeContextMap.body_status E dummy s hs
    by_cases h0 : (E.readSymbol s.reader s.input dummy).1.1 < 0
    · exact Or.inl ⟨h0, hsym⟩
    · exact Or.inr ⟨by omega, by omega⟩

/-- With a symbol reader that never yields a symbol below `INT32_MIN + 2`
the loop ends without error or with "Invalid cluster ID". -/
theorem DecodeContextMap.loop_defined {C R : Type} (E : EntropyCoder C R) (dummy : List Nat)
    (hE : ∀ (rd : R) (inp : BitReader), INT32_MIN + 1 < (E.readSymbol rd inp dummy).1.1)
    (fuel : Nat) (s sF : LoopState R) (hs : s.status = Status.ok)
    (h : DecodeContextMap.loop E dummy fuel s = some sF) :
    sF.status = Status.ok ∨ sF.status = Status.failure "Invalid cluster ID" := by
  have := DecodeContextMap.loop_induction E dummy
    (fun t => t.status = Status.ok ∨ t.status = Status.failure "Invalid cluster ID")
    (by
      intro t _ hts _
      rcases DecodeContextMap.body_defined E dummy t hts (hE _ _) with h1 | ⟨_, h1, _⟩
      · exact Or.inl h1
      · exact Or.inr h1)
    fuel s sF (Or.inl hs) hs h
  exact this.1

/-- Every symbol of the bounded scripted collaborator is at least
`INT32_MIN + 2`. -/
theorem boundedCoder_symbols (hist : Status) (raws : List Nat) (final : Bool)
    (dummy : List Nat) (rd : List Nat) (inp : BitReader) :
    INT32_MIN + 1 < ((boundedCoder hist raws final).readSymbol rd inp dummy).1.1 := by
  simp only [EntropyCoder.readSymbol, boundedCoder, toInt32, zigzagUnpack, INT32_MIN]
  split <;> omega

/-- One more iteration of the loop from a state with the cursor inside the
map and no error. -/
theorem DecodeContextMap.stateAfter_succ {C R : Type} (E : EntropyCoder C R)
    (dummy : List Nat) (k : Nat) (s : LoopState R) (h1 : s.i < s.context_map.length)
    (h2 : s.status = Status.ok) :
    DecodeContextMap.stateAfter E dummy (k + 1) s =
      DecodeContextMap.stateAfter E dummy k (DecodeContextMap.body E dummy s) := by
  rw [DecodeContextMap.stateAfter, if_pos ⟨h1, h2⟩]

/-! ## Main results -/

/-- C1: for every (non-empty) context map and every input on which
`DecodeContextMap` returns success, the returned `num_htrees` equals the
maximum of the returned context map plus 1, every entry of the context map
is in `[0, num_htrees)`, and `1 ≤ num_htrees ≤ kMaxClusters` (with
`kMaxClusters = 256`), on both the simple and the general path. Success is
never returned for an empty map, so that case needs no separate
hypothesis. -/
theorem DecodeContextMap_success_contract {C R : Type} (E : EntropyCoder C R)
    (context_map : List Nat) (num_htrees : Nat) (input : BitReader) (r : DecodeResult)
    (hb : IsBytes context_map)
    (h : DecodeContextMap E context_map num_htrees input = some r)
    (hok : r.status = Status.ok) :
    context_map ≠ [] ∧
    r.context_map.length = context_map.length ∧
    (∃ m, m ∈ r.context_map ∧ (∀ x ∈ r.context_map, x ≤ m) ∧ r.num_htrees = m + 1) ∧
    (∀ x ∈ r.context_map, x < r.num_htrees) ∧
    1 ≤ r.num_htrees ∧ r.num_htrees ≤ kMaxClusters := by
  have key : ∃ v inp log, IsBytes v ∧ v.length = context_map.length ∧
      r = DecodeContextMap.finish v num_htrees inp log := by
    by_cases hmode : (input.ReadFixedBits 1).1 = 0
    · rcases DecodeContextMap_general_cases E context_map num_htrees input r hmode h with
        ⟨hne, hr1⟩ | ⟨_, sF, hloop, hcases⟩
      · rw [hr1] at hok
        exact absurd hok hne
      · obtain ⟨hbytes, hlen⟩ := DecodeContextMap.loop_isBytes E _ _ _ sF hb rfl hloop
        rcases hcases with ⟨hne, hr1⟩ | ⟨_, _, hr1⟩ | ⟨_, _, hr1⟩
        · rw [hr1] at hok
          exact absurd hok hne
        · rw [hr1] at hok
          simp at hok
        · exact ⟨_, _, _, InverseMoveToFrontTransform_isBytes _ _ hbytes,
            by rw [InverseMoveToFrontTransform_length]; exact hlen, hr1⟩
    · obtain ⟨v, inp, hv, hlen, hr1⟩ :=
        DecodeContextMap_simple_cases E context_map num_htrees input hmode
      rw [hr1] at h
      exact ⟨v, inp, [], hv, hlen, (Option.some.inj h).symm⟩
  obtain ⟨v, inp, log, hv, hlen, hr1⟩ := key
  rw [hr1] at hok
  obtain ⟨m, h1, h2, h3, _, h5⟩ := DecodeContextMap.finish_ok v num_htrees inp log hv hok
  rw [hr1, h5]
  refine ⟨?_, hlen, ⟨m, h1, h2, rfl⟩, ?_, by simp, by simp only [kMaxClusters]; omega⟩
  · intro hnil
    rw [hnil] at hlen
    have : v = [] := List.length_eq_zero.mp hlen
    rw [this] at h1
    simp at h1
  · intro x hx
    have := h2 x hx
    simp only
    omega

/-- C1 (witness): the general path on a three-entry map with the symbols
0, 1, 1, which the inverse move-to-front step turns into the map 0, 1, 0
with two clusters. -/
theorem DecodeContextMap_success_contract_witness :
    IsBytes [0, 0, 0] ∧
    DecodeContextMap (scriptedCoder Status.ok [0, 2, 2] true) [0, 0, 0] 0
        (BitReader.mk [false] 0) =
      some { status := Status.ok, context_map := [0, 1, 0], num_htrees := 2,
             input := BitReader.mk [false] 1,
             log := [Event.decodeHistograms 1 false, Event.readSymbol 0, Event.store 0 0,
                     Event.readSymbol 1, Event.store 1 1, Event.readSymbol 1, Event.store 2 1,
                     Event.checkFinalState true] } ∧
    (([0, 0, 0] : List Nat) ≠ [] ∧
      ([0, 1, 0] : List Nat).length = ([0, 0, 0] : List Nat).length ∧
      (∃ m, m ∈ ([0, 1, 0] : List Nat) ∧ (∀ x ∈ ([0, 1, 0] : List Nat), x ≤ m) ∧ 2 = m + 1) ∧
      (∀ x ∈ ([0, 1, 0] : List Nat), x < 2) ∧
      1 ≤ 2 ∧ 2 ≤ kMaxClusters) :=
  ⟨by decide, by decide,
    DecodeContextMap_success_contract (scriptedCoder Status.ok [0, 2, 2] true) [0, 0, 0] 0
      (BitReader.mk [false] 0)
      { status := Status.ok, context_map := [0, 1, 0], num_htrees := 2,
        input := BitReader.mk [false] 1,
        log := [Event.decodeHistograms 1 false, Event.readSymbol 0, Event.store 0 0,
                Event.readSymbol 1, Event.store 1 1, Event.readSymbol 1, Event.store 2 1,
                Event.checkFinalState true] }
      (by decide) (by decide) rfl⟩

/-- C2: `VerifyContextMap(m, n)` succeeds if and only if the set of values
occurring in `m` is exactly `{0, ..., n-1}`; in particular the map `[0, 2]`,
which uses clusters 0 and 2 but never 1, is rejected with `n = 3`. -/
theorem VerifyContextMap_density (m : List Nat) (n : Nat) :
    (VerifyContextMap m n = Status.ok ↔ m.toFinset = Finset.range n) ∧
      VerifyContextMap [0, 2] 3 ≠ Status.ok := by
  refine ⟨?_, by decide⟩
  rw [VerifyContextMap_eq_ok_iff]
  constructor
  · rintro ⟨h1, h2⟩
    ext k
    simp only [List.mem_toFinset, Finset.mem_range]
    exact ⟨h1 k, h2 k⟩
  · intro h
    refine ⟨?_, ?_⟩
    · intro x hx
      have : x ∈ m.toFinset := List.mem_toFinset.mpr hx
      rw [h] at this
      exact Finset.mem_range.mp this
    · intro k hk
      have : k ∈ Finset.range n := Finset.mem_range.mpr hk
      rw [← h] at this
      exact List.mem_toFinset.mp this

/-- C3 (as amended): for every map length of at least 1, when the mode bit
selects the simple path and the 2-bit width field is 0, `DecodeContextMap`
succeeds with every entry equal to 0 and `num_htrees = 1`, whatever the
buffer held before, and consumes exactly 3 bits of input. -/
theorem DecodeContextMap_simple_zero_width {C R : Type} (E : EntropyCoder C R)
    (context_map : List Nat) (num_htrees : Nat) (input : BitReader)
    (hne : context_map ≠ [])
    (hmode : (input.ReadFixedBits 1).1 ≠ 0)
    (hwidth : ((input.ReadFixedBits 1).2.ReadFixedBits 2).1 = 0) :
    DecodeContextMap E context_map num_htrees input =
      some { status := Status.ok,
             context_map := List.replicate context_map.length 0,
             num_htrees := 1,
             input := { input with pos := input.pos + 3 },
             log := [] } := by
  have hlen : 0 < context_map.length := List.length_pos.mpr hne
  have hb : ((input.ReadFixedBits 1).1 != 0) = true := by simpa using hmode
  unfold DecodeContextMap
  simp only [hb, if_true, hwidth, ne_eq, not_true_eq_false, if_false, List.map_const',
    DecodeContextMap.finish_zeros _ _ _ _ hlen]
  rfl

/-- C3 (counterexample): on an empty map the simple path with width 0 does
not succeed with `num_htrees = 1`: the maximum of an empty range is taken,
which is not defined, and `num_htrees` is not set. -/
theorem DecodeContextMap_simple_zero_width_empty :
    ((BitReader.mk [true, false, false] 0).ReadFixedBits 1).1 ≠ 0 ∧
    (((BitReader.mk [true, false, false] 0).ReadFixedBits 1).2.ReadFixedBits 2).1 = 0 ∧
    DecodeContextMap (scriptedCoder Status.ok [] true) [] 0 (BitReader.mk [true, false, false] 0) =
      some { status := Status.undefined "dereference of end()",
             context_map := [],
             num_htrees := 0,
             input := BitReader.mk [true, false, false] 3,
             log := [] } := by
  decide

/-- C3 (witness): a three-entry buffer holding 7, 8, 9 is decoded to three
zeros with one cluster. -/
theorem DecodeContextMap_simple_zero_width_witness :
    DecodeContextMap (scriptedCoder Status.ok [] true) [7, 8, 9] 5
        (BitReader.mk [true, false, false, true] 0) =
      some { status := Status.ok,
             context_map := [0, 0, 0],
             num_htrees := 1,
             input := BitReader.mk [true, false, false, true] 3,
             log := [] } :=
  DecodeContextMap_simple_zero_width (scriptedCoder Status.ok [] true) [7, 8, 9] 5
    (BitReader.mk [true, false, false, true] 0) (by decide) (by decide) (by decide)

/-- C4: for every map of length `L` and every width `w` in `{1, 2, 3}`, the
simple path reads exactly `w` bits per entry in order (`3 + w * L` bits in
total), sets entry `i` to the `i`-th `w`-bit unsigned value read, and writing
the decoded entries back as `w`-bit fields reproduces exactly the bits that
were consumed. -/
theorem DecodeContextMap_simple_roundtrip {C R : Type} (E : EntropyCoder C R)
    (context_map : List Nat) (num_htrees : Nat) (input : BitReader) (w : Nat)
    (hmode : (input.ReadFixedBits 1).1 ≠ 0)
    (hwidth : ((input.ReadFixedBits 1).2.ReadFixedBits 2).1 = w)
    (hw : 1 ≤ w ∧ w ≤ 3) :
    ∃ r, DecodeContextMap E context_map num_htrees input = some r ∧
      r.input = { input with pos := input.pos + 3 + w * context_map.length } ∧
      r.context_map.length = context_map.length ∧
      (∀ i, i < context_map.length →
        r.context_map[i]? = some (bitsValue (input.window (input.pos + 3 + w * i) w))) ∧
      encodeEntries w r.context_map = input.window (input.pos + 3) (w * context_map.length) := by
  have hb : ((input.ReadFixedBits 1).1 != 0) = true := by simpa using hmode
  have hw0 : w ≠ 0 := by omega
  have hmod : ∀ k, bitsValue (input.window (input.pos + 3 + w * k) w) % 256 =
      bitsValue (input.window (input.pos + 3 + w * k) w) := by
    intro k
    apply Nat.mod_eq_of_lt
    have h1 := bitsValue_lt (input.window (input.pos + 3 + w * k) w)
    rw [BitReader.window_length] at h1
    have h2 : 2 ^ w ≤ 2 ^ 3 := Nat.pow_le_pow_right (by omega) hw.2
    omega
  have hvals : (DecodeContextMap.simpleLoop w context_map.length 0 context_map
      ((input.ReadFixedBits 1).2.ReadFixedBits 2).2) =
      ((List.range context_map.length).map
          (fun k => bitsValue (input.window (input.pos + 3 + w * k) w)),
        { input with pos := input.pos + 3 + w * context_map.length }) := by
    rw [DecodeContextMap.simpleLoop_eq]
    refine Prod.ext ?_ ?_
    · apply List.map_congr_left
      intro k _
      exact hmod k
    · rfl
  have hres : DecodeContextMap E context_map num_htrees input =
      some (DecodeContextMap.finish
        ((List.range context_map.length).map
          (fun k => bitsValue (input.window (input.pos + 3 + w * k) w)))
        num_htrees { input with pos := input.pos + 3 + w * context_map.length } []) := by
    unfold DecodeContextMap
    simp only [hb, if_true, hwidth, ne_eq, hw0, not_false_eq_true, hvals]
  refine ⟨_, hres, ?_, ?_, ?_, ?_⟩
  · simp only [DecodeContextMap.finish]; split <;> rfl
  · simp only [DecodeContextMap.finish]; split <;> simp
  · intro i hi
    simp only [DecodeContextMap.finish]
    split <;> simp [hi]
  · have henc := encodeEntries_windows w input (input.pos + 3) context_map.length
    simp only [DecodeContextMap.finish]
    split <;> exact henc

/-- C4 (witness): with width 2 the three entries read from the bits
`10 01 11` (first bit least significant) are 1, 2, 3, nine bits are consumed
and the entries written back as 2-bit fields give the same six bits. -/
theorem DecodeContextMap_simple_roundtrip_witness :
    ∃ r, DecodeContextMap (scriptedCoder Status.ok [] true) [7, 7, 7] 0
        (BitReader.mk [true, false, true, true, false, false, true, true, true] 0) = some r ∧
      r.input = BitReader.mk [true, false, true, true, false, false, true, true, true] 9 ∧
      r.context_map.length = 3 ∧
      (∀ i, i < 3 → r.context_map[i]? =
        some (bitsValue ((BitReader.mk [true, false, true, true, false, false, true, true, true]
          0).window (0 + 3 + 2 * i) 2))) ∧
      encodeEntries 2 r.context_map =
        (BitReader.mk [true, false, true, true, false, false, true, true, true] 0).window (0 + 3)
          (2 * 3) :=
  DecodeContextMap_simple_roundtrip (scriptedCoder Status.ok [] true) [7, 7, 7] 0
    (BitReader.mk [true, false, true, true, false, false, true, true, true] 0) 2
    (by decide) (by decide) (by decide)

/-- C5 (as amended): `InverseMoveToFrontTransform` applied to the encoded
sequence `[2, 0, 1]`, the table being initialised to the identity, decodes
it to `[2, 2, 0]`. -/
theorem InverseMoveToFrontTransform_example :
    InverseMoveToFrontTransform [2, 0, 1] 3 = [2, 2, 0] := by
  decide

/-- C5 (counterexample): the decoding of `[2, 0, 1]` is not `[2, 0, 2]`. -/
theorem InverseMoveToFrontTransform_example_not :
    InverseMoveToFrontTransform [2, 0, 1] 3 ≠ [2, 0, 2] := by
  decide

/-- C6: `InverseMoveToFrontTransform` is the exact inverse of the forward
move-to-front encoding: for every byte sequence `x`, the encoding of `x` is
a byte sequence of the same length, and applying
`InverseMoveToFrontTransform` to it returns `x`. -/
theorem InverseMoveToFrontTransform_MoveToFrontEncode (x : List Nat) (hx : IsBytes x) :
    (MoveToFrontEncode x).length = x.length ∧
      InverseMoveToFrontTransform (MoveToFrontEncode x) ((MoveToFrontEncode x).length : Int)
        = x := by
  refine ⟨MoveToFrontEncode.go_length _ _, ?_⟩
  rw [InverseMoveToFrontTransform_eq_run]
  apply InverseMoveToFrontTransform.run_encode
  intro b hb
  exact List.mem_range.mpr (hx b hb)

set_option maxRecDepth 10000 in
/-- C6 (witness): the sequence `[2, 2, 0, 255]` is encoded as `[2, 0, 1, 255]`
and decoded back. -/
theorem InverseMoveToFrontTransform_MoveToFrontEncode_witness :
    IsBytes [2, 2, 0, 255] ∧ MoveToFrontEncode [2, 2, 0, 255] = [2, 0, 1, 255] ∧
      (MoveToFrontEncode [2, 2, 0, 255]).length = [2, 2, 0, 255].length ∧
      InverseMoveToFrontTransform (MoveToFrontEncode [2, 2, 0, 255])
        ((MoveToFrontEncode [2, 2, 0, 255]).length : Int) = [2, 2, 0, 255] :=
  ⟨by decide, by decide,
    InverseMoveToFrontTransform_MoveToFrontEncode [2, 2, 0, 255] (by decide)⟩

/-- C8: general-path decoding returns, and it returns a failure (it neither
clamps nor succeeds) for every symbol stream in which the loop reads a
non-negative literal symbol of at least `kMaxClusters`, and for every stream
whose final-state check returns false after the loop. -/
theorem DecodeContextMap_general_rejects {C R : Type} (E : EntropyCoder C R)
    (context_map : List Nat) (num_htrees : Nat) (input : BitReader)
    (hL : context_map.length < 2 ^ 63)
    (hmode : (input.ReadFixedBits 1).1 = 0) :
    ∃ r, DecodeContextMap E context_map num_htrees input = some r ∧
      ((∃ sym, Event.readSymbol sym ∈ r.log ∧ (kMaxClusters : Int) ≤ sym) →
        r.status = Status.failure "Invalid cluster ID") ∧
      (Event.checkFinalState false ∈ r.log →
        r.status = Status.failure "Invalid context map") := by
  obtain ⟨r, hr⟩ := DecodeContextMap_total E context_map num_htrees input hL
  refine ⟨r, hr, ?_⟩
  have hinit : ∀ (rd : R) (inp : BitReader),
      DecodeContextMap.LogInv [Event.decodeHistograms 1 (decide (context_map.length ≤ 2))]
        ({ status := Status.ok, context_map := context_map, i := 0, reader := rd,
           input := inp,
           log := [Event.decodeHistograms 1 (decide (context_map.length ≤ 2))] } :
          LoopState R) := by
    intro rd inp
    refine ⟨?_, ?_, ?_⟩
    · intro sym hm; simp at hm
    · intro b hm; simp at hm
    · simp [Event.isDecodeHistograms]
  rcases DecodeContextMap_general_cases E context_map num_htrees input r hmode hr with
    ⟨_, rfl⟩ | ⟨_, sF, hloop, hcases⟩
  · refine ⟨?_, ?_⟩
    · rintro ⟨sym, hm, _⟩; simp at hm
    · intro hm; simp at hm
  · obtain ⟨g1, g2, _⟩ := DecodeContextMap.loop_LogInv E _ _ _ _ sF (hinit _ _) rfl hloop
    rcases hcases with ⟨_, hr1⟩ | ⟨hs, _, hr1⟩ | ⟨hs, _, hr1⟩ <;> rw [hr1] <;> clear hr1 hr
    · refine ⟨?_, ?_⟩
      · rintro ⟨sym, hm, hge⟩
        exact g1 sym hm hge
      · intro hm
        exact absurd hm (g2 false)
    · refine ⟨?_, fun _ => rfl⟩
      rintro ⟨sym, hm, hge⟩
      simp only [List.mem_append, List.mem_singleton, reduceCtorEq, or_false] at hm
      have := g1 sym hm hge
      rw [hs] at this
      exact absurd this (by simp)
    · rw [DecodeContextMap.finish_log]
      refine ⟨?_, ?_⟩
      · rintro ⟨sym, hm, hge⟩
        simp only [List.mem_append, List.mem_singleton, reduceCtorEq, or_false] at hm
        have := g1 sym hm hge
        rw [hs] at this
        exact absurd this (by simp)
      · intro hm
        simp only [List.mem_append, List.mem_singleton, Event.checkFinalState.injEq,
          Bool.false_eq_true, or_false] at hm
        exact absurd hm (g2 false)

/-- C8 (witness): on a two-entry map the literal 300 is rejected with
"Invalid cluster ID" and nothing is stored; and a stream whose terminal
check fails is rejected with "Invalid context map". -/
theorem DecodeContextMap_general_rejects_witness :
    (∃ r, DecodeContextMap (scriptedCoder Status.ok [600] true) [0, 0] 0
          (BitReader.mk [false] 0) = some r ∧
      ((∃ sym, Event.readSymbol sym ∈ r.log ∧ (kMaxClusters : Int) ≤ sym) →
        r.status = Status.failure "Invalid cluster ID") ∧
      (Event.checkFinalState false ∈ r.log →
        r.status = Status.failure "Invalid context map")) ∧
    DecodeContextMap (scriptedCoder Status.ok [600] true) [0, 0] 0 (BitReader.mk [false] 0) =
      some { status := Status.failure "Invalid cluster ID", context_map := [0, 0],
             num_htrees := 0, input := BitReader.mk [false] 1,
             log := [Event.decodeHistograms 1 true, Event.readSymbol 300] } ∧
    DecodeContextMap (scriptedCoder Status.ok [0, 0] false) [0, 0] 0 (BitReader.mk [false] 0) =
      some { status := Status.failure "Invalid context map", context_map := [0, 0],
             num_htrees := 0, input := BitReader.mk [false] 1,
             log := [Event.decodeHistograms 1 true, Event.readSymbol 0, Event.store 0 0,
                     Event.readSymbol 0, Event.store 1 0, Event.checkFinalState false] } :=
  ⟨DecodeContextMap_general_rejects (scriptedCoder Status.ok [600] true) [0, 0] 0
      (BitReader.mk [false] 0) (by norm_num) (by decide),
    by decide, by decide⟩

/-- C9 (as amended): for every map of length `L < 2 ^ 63` and every symbol
stream whose symbols are all at least `INT32_MIN + 2`, the general-path
loop started at cursor 0 ends, without error or with "Invalid cluster ID",
and when it ends without an error the write cursor satisfies
`L ≤ i ≤ L + 2 ^ 31 - 2`: the loop stops as soon as the cursor reaches or
passes the end of the map, and a final zero run may carry it past the
end. -/
theorem DecodeContextMap_loop_exit_cursor {C R : Type} (E : EntropyCoder C R)
    (dummy context_map : List Nat) (reader : R) (input : BitReader) (log : List Event)
    (hL : context_map.length < 2 ^ 63)
    (hE : ∀ (rd : R) (inp : BitReader), INT32_MIN + 1 < (E.readSymbol rd inp dummy).1.1) :
    ∃ sF, DecodeContextMap.loop E dummy context_map.length
        { status := Status.ok, context_map := context_map, i := 0, reader := reader,
          input := input, log := log } = some sF ∧
      (sF.status = Status.ok ∨ sF.status = Status.failure "Invalid cluster ID") ∧
      sF.context_map.length = context_map.length ∧
      (sF.status = Status.ok →
        context_map.length ≤ sF.i ∧ sF.i ≤ context_map.length + (2 ^ 31 - 2)) := by
  obtain ⟨sF, hsF⟩ := DecodeContextMap.loop_total E dummy context_map.length
    { status := Status.ok, context_map := context_map, i := 0, reader := reader,
      input := input, log := log } hL (by simp)
  obtain ⟨h1, h2, h3⟩ := DecodeContextMap.loop_cursor E dummy context_map.length
    context_map.length _ sF hL rfl (by simp) rfl hsF
  have hdef := DecodeContextMap.loop_defined E dummy hE context_map.length _ sF rfl hsF
  exact ⟨sF, hsF, hdef, h1, fun hok => ⟨h3 hok, h2⟩⟩

/-- C9 (counterexample): on a one-entry map the symbol `-1` (a run of two
zeros) ends the loop without error with the cursor at 2, past the end of
the map; decoding then succeeds. -/
theorem DecodeContextMap_loop_overshoot :
    (DecodeContextMap.loop (scriptedCoder Status.ok [1] true) [] 1
        { status := Status.ok, context_map := [0], i := 0, reader := [1],
          input := BitReader.mk [false] 1, log := [] }).map
      (fun s => (s.status, s.i, s.context_map, s.log)) =
      some (Status.ok, 2, [0], [Event.readSymbol (-1)]) ∧
    (DecodeContextMap (scriptedCoder Status.ok [1] true) [0] 0 (BitReader.mk [false] 0)).map
      (fun r => r.status) = some Status.ok := by
  decide

/-- C9 (witness): the one-entry map and the stream consisting of the
symbol `-1`, read through a collaborator whose symbols all lie between
-512 and 511: the loop ends without error with the cursor at 2. -/
theorem DecodeContextMap_loop_exit_cursor_witness :
    (DecodeContextMap.loop (boundedCoder Status.ok [1] true) [] 1
        { status := Status.ok, context_map := [0], i := 0, reader := [1],
          input := BitReader.mk [false] 1, log := [] }).map
      (fun s => (s.status, s.i, s.context_map, s.log)) =
      some (Status.ok, 2, [0], [Event.readSymbol (-1)]) ∧
    ∃ sF, DecodeContextMap.loop (boundedCoder Status.ok [1] true) [] [0].length
        { status := Status.ok, context_map := [0], i := 0, reader := [1],
          input := BitReader.mk [false] 1, log := [] } = some sF ∧
      (sF.status = Status.ok ∨ sF.status = Status.failure "Invalid cluster ID") ∧
      sF.context_map.length = [0].length ∧
      (sF.status = Status.ok → [0].length ≤ sF.i ∧ sF.i ≤ [0].length + (2 ^ 31 - 2)) :=
  ⟨by decide,
    DecodeContextMap_loop_exit_cursor (boundedCoder Status.ok [1] true) [] [0] [1]
      (BitReader.mk [false] 1) [] (by norm_num)
      (boundedCoder_symbols Status.ok [1] true [])⟩

/-- C10: on the general path the histogram decoder is invoked exactly once,
for one distribution, with back-references disallowed when the map has at
most 2 entries and allowed when it has more; the outcome of decoding
depends on the histogram decoder only through its result at these
arguments. -/
theorem DecodeContextMap_histograms_call {C R : Type} (E : EntropyCoder C R)
    (context_map : List Nat) (num_htrees : Nat) (input : BitReader) (r : DecodeResult)
    (hmode : (input.ReadFixedBits 1).1 = 0)
    (h : DecodeContextMap E context_map num_htrees input = some r) :
    (context_map.length ≤ 2 →
      r.log.filter Event.isDecodeHistograms = [Event.decodeHistograms 1 true]) ∧
    (2 < context_map.length →
      r.log.filter Event.isDecodeHistograms = [Event.decodeHistograms 1 false]) ∧
    (∀ f : BitReader → Nat → Bool → Status × C × List Nat × BitReader,
      f (input.ReadFixedBits 1).2 1 (decide (context_map.length ≤ 2)) =
        E.DecodeHistograms (input.ReadFixedBits 1).2 1 (decide (context_map.length ≤ 2)) →
      DecodeContextMap { E with DecodeHistograms := f } context_map num_htrees input =
        some r) := by
  have hlog : r.log.filter Event.isDecodeHistograms =
      [Event.decodeHistograms 1 (decide (context_map.length ≤ 2))] := by
    have hinit : ∀ (rd : R) (inp : BitReader),
        DecodeContextMap.LogInv [Event.decodeHistograms 1 (decide (context_map.length ≤ 2))]
          ({ status := Status.ok, context_map := context_map, i := 0, reader := rd,
             input := inp,
             log := [Event.decodeHistograms 1 (decide (context_map.length ≤ 2))] } :
            LoopState R) := by
      intro rd inp
      refine ⟨?_, ?_, ?_⟩
      · intro sym hm; simp at hm
      · intro b hm; simp at hm
      · simp [Event.isDecodeHistograms]
    rcases DecodeContextMap_general_cases E context_map num_htrees input r hmode h with
      ⟨_, hr1⟩ | ⟨_, sF, hloop, hcases⟩
    · rw [hr1]; simp [Event.isDecodeHistograms]
    · obtain ⟨_, _, g3⟩ := DecodeContextMap.loop_LogInv E _ _ _ _ sF (hinit _ _) rfl hloop
      rcases hcases with ⟨_, hr1⟩ | ⟨_, _, hr1⟩ | ⟨_, _, hr1⟩ <;> rw [hr1]
      · exact g3
      · simp only [List.filter_append, g3]
        simp [Event.isDecodeHistograms]
      · rw [DecodeContextMap.finish_log]
        simp only [List.filter_append, g3]
        simp [Event.isDecodeHistograms]
  refine ⟨?_, ?_, ?_⟩
  · intro hle
    rw [hlog]; simp [hle]
  · intro hlt
    have : ¬ context_map.length ≤ 2 := by omega
    rw [hlog]; simp [this]
  · intro f hf
    rw [← h]
    unfold DecodeContextMap
    simp only [EntropyCoder.callDecodeHistograms, hf, DecodeContextMap.loop_congr]

/-- C10 (witness): a two-entry map is decoded with back-references
disallowed, a three-entry map with back-references allowed. -/
theorem DecodeContextMap_histograms_call_witness :
    (([0, 0] : List Nat).length ≤ 2 →
      ([Event.decodeHistograms 1 true, Event.readSymbol 0, Event.store 0 0, Event.readSymbol 0,
        Event.store 1 0, Event.checkFinalState true].filter Event.isDecodeHistograms =
        [Event.decodeHistograms 1 true])) ∧
    DecodeContextMap (scriptedCoder Status.ok [0, 0] true) [0, 0] 0 (BitReader.mk [false] 0) =
      some { status := Status.ok, context_map := [0, 0], num_htrees := 1,
             input := BitReader.mk [false] 1,
             log := [Event.decodeHistograms 1 true, Event.readSymbol 0, Event.store 0 0,
                     Event.readSymbol 0, Event.store 1 0, Event.checkFinalState true] } ∧
    (DecodeContextMap (scriptedCoder Status.ok [0, 0, 0] true) [0, 0, 0] 0
        (BitReader.mk [false] 0)).map (fun r => r.log.filter Event.isDecodeHistograms) =
      some [Event.decodeHistograms 1 false] :=
  ⟨(DecodeContextMap_histograms_call (scriptedCoder Status.ok [0, 0] true) [0, 0] 0
      (BitReader.mk [false] 0)
      { status := Status.ok, context_map := [0, 0], num_htrees := 1,
        input := BitReader.mk [false] 1,
        log := [Event.decodeHistograms 1 true, Event.readSymbol 0, Event.store 0 0,
                Event.readSymbol 0, Event.store 1 0, Event.checkFinalState true] }
      (by decide) (by decide)).1,
    by decide, by decide⟩

/-- C11: for every context map `m` accepted by the validator with the count
`n = max(m) + 1`, running the final two statements of the decoder (count
recomputation and validation) on the accepted map again yields success
again, leaves `m` unchanged, and the recomputed count is still `n`. -/
theorem VerifyContextMap_revalidate (m : List Nat) (n k : Nat) (input : BitReader)
    (log : List Event) (hmax : max_element m = some k) (hn : n = k + 1)
    (hacc : VerifyContextMap m n = Status.ok) :
    DecodeContextMap.finish m n input log =
      { status := Status.ok, context_map := m, num_htrees := n, input := input, log := log } ∧
    DecodeContextMap.finish (DecodeContextMap.finish m n input log).context_map
        (DecodeContextMap.finish m n input log).num_htrees input log =
      DecodeContextMap.finish m n input log ∧
    VerifyContextMap (DecodeContextMap.finish m n input log).context_map
        (DecodeContextMap.finish m n input log).num_htrees = Status.ok := by
  subst hn
  have h1 : DecodeContextMap.finish m (k + 1) input log =
      { status := Status.ok, context_map := m, num_htrees := k + 1, input := input,
        log := log } := by
    simp only [DecodeContextMap.finish, hmax, hacc]
  refine ⟨h1, ?_, ?_⟩
  · rw [h1]; exact h1
  · rw [h1]; exact hacc

/-- C11 (witness): the map 0, 1, 0 with count 2. -/
theorem VerifyContextMap_revalidate_witness :
    max_element [0, 1, 0] = some 1 ∧ VerifyContextMap [0, 1, 0] 2 = Status.ok ∧
    (DecodeContextMap.finish [0, 1, 0] 2 (BitReader.mk [] 0) [] =
      { status := Status.ok, context_map := [0, 1, 0], num_htrees := 2,
        input := BitReader.mk [] 0, log := [] } ∧
    DecodeContextMap.finish (DecodeContextMap.finish [0, 1, 0] 2 (BitReader.mk [] 0) []).context_map
        (DecodeContextMap.finish [0, 1, 0] 2 (BitReader.mk [] 0) []).num_htrees
        (BitReader.mk [] 0) [] =
      DecodeContextMap.finish [0, 1, 0] 2 (BitReader.mk [] 0) [] ∧
    VerifyContextMap (DecodeContextMap.finish [0, 1, 0] 2 (BitReader.mk [] 0) []).context_map
        (DecodeContextMap.finish [0, 1, 0] 2 (BitReader.mk [] 0) []).num_htrees = Status.ok) :=
  ⟨by decide, by decide,
    VerifyContextMap_revalidate [0, 1, 0] 2 1 (BitReader.mk [] 0) [] (by decide) (by decide)
      (by decide)⟩

/-- C12: when the histogram decoder fails on the general path,
`DecodeContextMap` returns that failure unchanged, reads no symbol (and
makes no store and no terminal-state check), and leaves every entry of the
context map and `num_htrees` as they were on entry. -/
theorem DecodeContextMap_histogram_failure {C R : Type} (E : EntropyCoder C R)
    (context_map : List Nat) (num_htrees : Nat) (input : BitReader)
    (hmode : (input.ReadFixedBits 1).1 = 0)
    (hfail : (E.DecodeHistograms (input.ReadFixedBits 1).2 1
      (decide (context_map.length ≤ 2))).1 ≠ Status.ok) :
    ∃ r, DecodeContextMap E context_map num_htrees input = some r ∧
      r.status = (E.DecodeHistograms (input.ReadFixedBits 1).2 1
        (decide (context_map.length ≤ 2))).1 ∧
      r.context_map = context_map ∧ r.num_htrees = num_htrees ∧
      r.input = (E.DecodeHistograms (input.ReadFixedBits 1).2 1
        (decide (context_map.length ≤ 2))).2.2.2 ∧
      r.log = [Event.decodeHistograms 1 (decide (context_map.length ≤ 2))] ∧
      r.log.filter Event.isReadSymbol = [] := by
  have hb : ((input.ReadFixedBits 1).1 != 0) = false := by simp [hmode]
  have hres : DecodeContextMap E context_map num_htrees input =
      some { status := (E.DecodeHistograms (input.ReadFixedBits 1).2 1
               (decide (context_map.length ≤ 2))).1,
             context_map := context_map, num_htrees := num_htrees,
             input := (E.DecodeHistograms (input.ReadFixedBits 1).2 1
               (decide (context_map.length ≤ 2))).2.2.2,
             log := [Event.decodeHistograms 1 (decide (context_map.length ≤ 2))] } := by
    unfold DecodeContextMap
    simp only [hb, Bool.false_eq_true, if_false, EntropyCoder.callDecodeHistograms, ne_eq,
      hfail, not_false_eq_true, if_true]
  refine ⟨_, hres, rfl, rfl, rfl, rfl, rfl, ?_⟩
  simp [Event.isReadSymbol]

/-- C12 (witness): a histogram failure on a three-entry buffer holding
5, 6, 7 with `num_htrees = 9` on entry. -/
theorem DecodeContextMap_histogram_failure_witness :
    ∃ r, DecodeContextMap (scriptedCoder (Status.failure "Invalid histogram") [0, 0, 0] true)
        [5, 6, 7] 9 (BitReader.mk [false] 0) = some r ∧
      r.status = Status.failure "Invalid histogram" ∧
      r.context_map = [5, 6, 7] ∧ r.num_htrees = 9 ∧
      r.input = BitReader.mk [false] 1 ∧
      r.log = [Event.decodeHistograms 1 false] ∧
      r.log.filter Event.isReadSymbol = [] :=
  DecodeContextMap_histogram_failure
    (scriptedCoder (Status.failure "Invalid histogram") [0, 0, 0] true)
    [5, 6, 7] 9 (BitReader.mk [false] 0) (by decide) (by decide)

/-- C13: for every symbol stream and every map length `L`, every write the
general-path loop performs into the context map is at an index `i < L`, the
buffer keeps its length, and every position without a write keeps its
value; in particular a zero run that extends past the end of the map causes
no write outside the buffer. The loop ends for every map shorter than
`2 ^ 63` entries. -/
theorem DecodeContextMap_loop_stores_in_bounds {C R : Type} (E : EntropyCoder C R)
    (dummy context_map : List Nat) (reader : R) (input : BitReader) :
    (∀ fuel sF, DecodeContextMap.loop E dummy fuel
        { status := Status.ok, context_map := context_map, i := 0, reader := reader,
          input := input, log := [] } = some sF →
      sF.context_map.length = context_map.length ∧
      (∀ i v, Event.store i v ∈ sF.log → i < context_map.length) ∧
      (∀ j, (∀ v, Event.store j v ∉ sF.log) → sF.context_map[j]? = context_map[j]?)) ∧
    (context_map.length < 2 ^ 63 →
      ∃ sF, DecodeContextMap.loop E dummy context_map.length
        { status := Status.ok, context_map := context_map, i := 0, reader := reader,
          input := input, log := [] } = some sF) := by
  refine ⟨?_, ?_⟩
  · intro fuel sF h
    exact DecodeContextMap.loop_stores E dummy context_map fuel _ sF rfl
      (by intro i v hm; simp at hm) (fun _ _ => rfl) rfl h
  · intro hL
    exact DecodeContextMap.loop_total E dummy context_map.length _ hL (by simp)

/-- C13 (witness): on a three-entry map the symbols 1, -5 store once, at
index 0, and the zero run that reaches past the end stores nothing. -/
theorem DecodeContextMap_loop_stores_in_bounds_witness :
    (DecodeContextMap.loop (scriptedCoder Status.ok [2, 9] true) [] 3
        { status := Status.ok, context_map := [0, 0, 0], i := 0, reader := [2, 9],
          input := BitReader.mk [false] 1, log := [] }).map
      (fun s => (s.status, s.i, s.context_map, s.log)) =
      some (Status.ok, 7, [1, 0, 0],
        [Event.readSymbol 1, Event.store 0 1, Event.readSymbol (-5)]) ∧
    (([0, 0, 0] : List Nat).length < 2 ^ 63 →
      ∃ sF, DecodeContextMap.loop (scriptedCoder Status.ok [2, 9] true) []
        ([0, 0, 0] : List Nat).length
        { status := Status.ok, context_map := [0, 0, 0], i := 0, reader := [2, 9],
          input := BitReader.mk [false] 1, log := [] } = some sF) :=
  ⟨by decide,
    (DecodeContextMap_loop_stores_in_bounds (scriptedCoder Status.ok [2, 9] true) []
      [0, 0, 0] [2, 9] (BitReader.mk [false] 1)).2⟩

/-- C14: for every non-empty context map `m`, `VerifyContextMap(m, max(m) + 1)`
never takes the "Invalid histogram index" branch: as called at the end of
`DecodeContextMap` the validator succeeds or fails with "Incomplete context
map". -/
theorem VerifyContextMap_max_no_invalid_index (m : List Nat) (hne : m ≠ []) :
    ∃ k, max_element m = some k ∧
      VerifyContextMap m (k + 1) ≠ Status.failure "Invalid histogram index in context map." ∧
      (VerifyContextMap m (k + 1) = Status.ok ∨
        VerifyContextMap m (k + 1) = Status.failure "Incomplete context map.") ∧
      ∀ (num_htrees : Nat) (input : BitReader) (log : List Event),
        (DecodeContextMap.finish m num_htrees input log).status = Status.ok ∨
        (DecodeContextMap.finish m num_htrees input log).status =
          Status.failure "Incomplete context map." := by
  obtain ⟨k, hk⟩ := max_element_isSome m hne
  have hlt : ∀ x ∈ m, x < k + 1 := by
    intro x hx
    have := (max_element_spec m k hk).2 x hx
    omega
  have hc := VerifyContextMap_cases m (k + 1) hlt
  refine ⟨k, hk, ?_, hc, ?_⟩
  · rcases hc with h | h <;> rw [h] <;> decide
  · intro num_htrees input log
    simp only [DecodeContextMap.finish, hk]
    exact hc

/-- C14 (witness): the map 0, 2 has maximum 2; with count 3 the validator
fails with "Incomplete context map". -/
theorem VerifyContextMap_max_no_invalid_index_witness :
    VerifyContextMap [0, 2] 3 = Status.failure "Incomplete context map." ∧
    ∃ k, max_element [0, 2] = some k ∧
      VerifyContextMap [0, 2] (k + 1) ≠
        Status.failure "Invalid histogram index in context map." ∧
      (VerifyContextMap [0, 2] (k + 1) = Status.ok ∨
        VerifyContextMap [0, 2] (k + 1) = Status.failure "Incomplete context map.") ∧
      ∀ (num_htrees : Nat) (input : BitReader) (log : List Event),
        (DecodeContextMap.finish [0, 2] num_htrees input log).status = Status.ok ∨
        (DecodeContextMap.finish [0, 2] num_htrees input log).status =
          Status.failure "Incomplete context map." :=
  ⟨by decide, VerifyContextMap_max_no_invalid_index [0, 2] (by decide)⟩

/-- C15: for every 256-entry table `v` and every index in `0..255`,
`MoveToFront(v, index)` yields a table of 256 entries whose entry 0 is the
old `v[index]`, whose entry `j` is the old `v[j-1]` for every
`1 ≤ j ≤ index`, and whose entries at positions greater than `index` are
unchanged. The loop is embedded as a recursion on its counter, which goes
down from `index` to 0, so the function is total. -/
theorem MoveToFront_entries (v : List Nat) (index : Nat) (hv : v.length = 256)
    (hi : index < 256) :
    (MoveToFront v index).length = 256 ∧
    (MoveToFront v index)[0]? = v[index]? ∧
    (∀ j, 1 ≤ j → j ≤ index → (MoveToFront v index)[j]? = v[j - 1]?) ∧
    (∀ j, index < j → (MoveToFront v index)[j]? = v[j]?) := by
  have hil : index < v.length := by omega
  refine ⟨by rw [MoveToFront_length]; exact hv, ?_, ?_, ?_⟩
  · rw [MoveToFront_getElem? v index hil]; simp
  · intro j h1 h2
    have : ¬ j = 0 := by omega
    rw [MoveToFront_getElem? v index hil]
    simp only [this, h2, if_true, if_false]
  · intro j h1
    have h0 : ¬ j = 0 := by omega
    have h2 : ¬ j ≤ index := by omega
    rw [MoveToFront_getElem? v index hil]
    simp only [h0, h2, if_false]

/-- C15 (witness): moving entry 3 of the identity table to the front gives
3, 0, 1, 2, 4, 5, ... -/
theorem MoveToFront_entries_witness :
    (List.range 256).length = 256 ∧ (3 : Nat) < 256 ∧
    (MoveToFront (List.range 256) 3).take 6 = [3, 0, 1, 2, 4, 5] ∧
    ((MoveToFront (List.range 256) 3).length = 256 ∧
      (MoveToFront (List.range 256) 3)[0]? = (List.range 256)[3]? ∧
      (∀ j, 1 ≤ j → j ≤ 3 → (MoveToFront (List.range 256) 3)[j]? = (List.range 256)[j - 1]?) ∧
      (∀ j, 3 < j → (MoveToFront (List.range 256) 3)[j]? = (List.range 256)[j]?)) :=
  ⟨by simp, by decide, by decide,
    MoveToFront_entries (List.range 256) 3 (by simp) (by decide)⟩

/-- C16: for every `k` in `1..256` and every byte sequence whose entries are
all below `k`, every entry of the output of `InverseMoveToFrontTransform` is
also below `k`, and at every point of the transform the first `k` slots of
the table are a permutation of `0..k-1`. -/
theorem InverseMoveToFrontTransform_below (k : Nat) (v : List Nat)
    (hk : 1 ≤ k ∧ k ≤ 256) (hv : ∀ x ∈ v, x < k) :
    (InverseMoveToFrontTransform v (v.length : Int)).length = v.length ∧
    (∀ y ∈ InverseMoveToFrontTransform v (v.length : Int), y < k) ∧
    (∀ n, ((InverseMoveToFrontTransform.tableAfter (List.range 256) (v.take n)).take k).Perm
      (List.range k)) := by
  refine ⟨InverseMoveToFrontTransform_length _ _, ?_, ?_⟩
  · rw [InverseMoveToFrontTransform_eq_run]
    exact InverseMoveToFrontTransform.run_lt k _ v (List.Perm.refl _) rfl hv hk.2
  · intro n
    obtain ⟨h1, h2⟩ := InverseMoveToFrontTransform.tableAfter_perm k (List.range 256)
      (v.take n) (List.Perm.refl _) rfl (fun x hx => hv x (List.mem_of_mem_take hx)) hk.2
    exact take_perm_range k _ h1 h2 hk.2

set_option maxRecDepth 10000 in
/-- C16 (witness): with `k = 3` the sequence 2, 0, 1, 2 decodes to
2, 2, 0, 1, all below 3, and the first three table slots end as 1, 0, 2. -/
theorem InverseMoveToFrontTransform_below_witness :
    ((1 : Nat) ≤ 3 ∧ 3 ≤ 256) ∧ (∀ x ∈ ([2, 0, 1, 2] : List Nat), x < 3) ∧
    InverseMoveToFrontTransform [2, 0, 1, 2] 4 = [2, 2, 0, 1] ∧
    (InverseMoveToFrontTransform.tableAfter (List.range 256) [2, 0, 1, 2]).take 3 = [1, 0, 2] ∧
    ((InverseMoveToFrontTransform [2, 0, 1, 2] (([2, 0, 1, 2] : List Nat).length : Int)).length
        = ([2, 0, 1, 2] : List Nat).length ∧
      (∀ y ∈ InverseMoveToFrontTransform [2, 0, 1, 2] (([2, 0, 1, 2] : List Nat).length : Int),
        y < 3) ∧
      (∀ n, ((InverseMoveToFrontTransform.tableAfter (List.range 256)
          (([2, 0, 1, 2] : List Nat).take n)).take 3).Perm (List.range 3))) :=
  ⟨by decide, by decide, by decide, by decide,
    InverseMoveToFrontTransform_below 3 [2, 0, 1, 2] (by decide) (by decide)⟩

/-- C17: for every encoded sequence `e` and its `InverseMoveToFrontTransform`
output `d`: if `e[0] = 0` then `d[0] = 0`, and for every position `i ≥ 1`
with `e[i] = 0`, `d[i] = d[i-1]`; hence a run of zeros decodes to a run
repeating the previous cluster index, and an all-zero encoded map decodes
to an all-zero map of the same length. -/
theorem InverseMoveToFrontTransform_zero_repeats (e : List Nat) :
    (InverseMoveToFrontTransform e (e.length : Int)).length = e.length ∧
    (e[0]? = some 0 → (InverseMoveToFrontTransform e (e.length : Int))[0]? = some 0) ∧
    (∀ i, e[i + 1]? = some 0 →
      (InverseMoveToFrontTransform e (e.length : Int))[i + 1]? =
        (InverseMoveToFrontTransform e (e.length : Int))[i]?) ∧
    ((∀ x ∈ e, x = 0) → ∀ y ∈ InverseMoveToFrontTransform e (e.length : Int), y = 0) := by
  rw [InverseMoveToFrontTransform_eq_run]
  refine ⟨InverseMoveToFrontTransform.run_length _ _, ?_, ?_, ?_⟩
  · intro h0
    match e, h0 with
    | a :: rest, h0 =>
      have ha : a = 0 := by simpa using h0
      subst ha
      simp [InverseMoveToFrontTransform.run]
  · intro i hz
    exact InverseMoveToFrontTransform.run_zero_repeat e _ i (by simp) hz
  · intro hz y hy
    have := InverseMoveToFrontTransform.run_zeros e (List.range 256) hz y hy
    rw [this]
    simp

/-- C17 (witness): the encoded sequence 2, 0, 0, 1, 0 decodes to
2, 2, 2, 0, 0. -/
theorem InverseMoveToFrontTransform_zero_repeats_witness :
    InverseMoveToFrontTransform [2, 0, 0, 1, 0] 5 = [2, 2, 2, 0, 0] ∧
    ∀ i, ([2, 0, 0, 1, 0] : List Nat)[i + 1]? = some 0 →
      (InverseMoveToFrontTransform [2, 0, 0, 1, 0]
          (([2, 0, 0, 1, 0] : List Nat).length : Int))[i + 1]? =
        (InverseMoveToFrontTransform [2, 0, 0, 1, 0]
          (([2, 0, 0, 1, 0] : List Nat).length : Int))[i]? :=
  ⟨by decide, (InverseMoveToFrontTransform_zero_repeats [2, 0, 0, 1, 0]).2.2.1⟩

/-- C19 (as amended): for every map of length `L < 2 ^ 63` and every symbol
stream whose symbols are all at least `INT32_MIN + 2`, each iteration of the
general-path loop either returns "Invalid cluster ID" with the cursor where
it was (a literal of at least `kMaxClusters`) or advances the write cursor
by at least 1: by exactly 1 for a literal, by at least 2 for a negative
symbol. The loop ends, without error or with "Invalid cluster ID", after
reading at most `L` symbols. -/
theorem DecodeContextMap_loop_progress {C R : Type} (E : EntropyCoder C R)
    (dummy context_map : List Nat) (reader : R) (input : BitReader)
    (hL : context_map.length < 2 ^ 63)
    (hE : ∀ (rd : R) (inp : BitReader), INT32_MIN + 1 < (E.readSymbol rd inp dummy).1.1) :
    (∀ s : LoopState R, s.status = Status.ok → s.context_map.length = context_map.length →
      s.i < context_map.length →
      ((kMaxClusters : Int) ≤ (E.readSymbol s.reader s.input dummy).1.1 ∧
        (DecodeContextMap.body E dummy s).status = Status.failure "Invalid cluster ID" ∧
        (DecodeContextMap.body E dummy s).i = s.i) ∨
      ((DecodeContextMap.body E dummy s).status = Status.ok ∧
        s.i + 1 ≤ (DecodeContextMap.body E dummy s).i ∧
        (0 ≤ (E.readSymbol s.reader s.input dummy).1.1 →
          (DecodeContextMap.body E dummy s).i = s.i + 1) ∧
        ((E.readSymbol s.reader s.input dummy).1.1 < 0 →
          s.i + 2 ≤ (DecodeContextMap.body E dummy s).i))) ∧
    ∃ sF, DecodeContextMap.loop E dummy context_map.length
        { status := Status.ok, context_map := context_map, i := 0, reader := reader,
          input := input, log := [] } = some sF ∧
      (sF.status = Status.ok ∨ sF.status = Status.failure "Invalid cluster ID") ∧
      (sF.log.filter Event.isReadSymbol).length ≤ context_map.length := by
  refine ⟨?_, ?_⟩
  · intro s hs hlen hi
    rcases DecodeContextMap.body_defined E dummy s hs (hE _ _) with hb | hfail
    · right
      rcases DecodeContextMap.body_ok E dummy s hb with ⟨h1, h2, _, h4, _⟩ | ⟨h1, _, _, h4, _⟩
      · simp only [INT32_MAX] at h2
        have hlt : s.i + (-(E.readSymbol s.reader s.input dummy).1.1 + 1).toNat < SIZE_MOD := by
          simp only [SIZE_MOD]; omega
        rw [Nat.mod_eq_of_lt hlt] at h4
        refine ⟨hb, by omega, fun h0 => by omega, fun _ => by omega⟩
      · have hlt : s.i + 1 < SIZE_MOD := by simp only [SIZE_MOD]; omega
        rw [Nat.mod_eq_of_lt hlt] at h4
        refine ⟨hb, by omega, fun _ => h4, fun h0 => by omega⟩
    · exact Or.inl hfail
  · obtain ⟨sF, hsF⟩ := DecodeContextMap.loop_total E dummy context_map.length
      { status := Status.ok, context_map := context_map, i := 0, reader := reader,
        input := input, log := [] } hL (by simp)
    exact ⟨sF, hsF, DecodeContextMap.loop_defined E dummy hE context_map.length _ sF rfl hsF,
      DecodeContextMap.loop_reads E dummy context_map.length
        context_map.length _ sF hL rfl (by simp) (by simp) rfl hsF⟩

/-- C19 (counterexample): two iterations that do not advance the cursor.
First, on a two-entry map the iteration that reads the literal 300 returns
"Invalid cluster ID" and leaves the cursor at 0, so a literal does not
always advance the cursor by 1. Second, on a map of `2 ^ 31 + 2` entries the
zero runs `-2147483646` and `-1` bring the cursor to `2 ^ 31 + 1`, inside the
map; the next symbol `INT32_MIN + 1` is greater than `INT32_MIN`, but its
increment `-sym + 1` does not fit `int` and the cursor is not advanced (a
build that wraps the overflow moves it back to 1). -/
theorem DecodeContextMap_loop_progress_overflow :
    (((scriptedCoder Status.ok [600] true).readSymbol [600] (BitReader.mk [false] 1) []).1.1
        = 300 ∧
      (DecodeContextMap.body (scriptedCoder Status.ok [600] true) []
        { status := Status.ok, context_map := [0, 0], i := 0, reader := [600],
          input := BitReader.mk [false] 1, log := [] }).status =
        Status.failure "Invalid cluster ID" ∧
      ¬ (0 + 1 ≤ (DecodeContextMap.body (scriptedCoder Status.ok [600] true) []
        { status := Status.ok, context_map := [0, 0], i := 0, reader := [600],
          input := BitReader.mk [false] 1, log := [] }).i)) ∧
    ((DecodeContextMap.stateAfter
        (scriptedCoder Status.ok [4294967291, 1, 4294967293] true) [] 2
        { status := Status.ok, context_map := List.replicate 2147483650 0, i := 0,
          reader := [4294967291, 1, 4294967293], input := BitReader.mk [false] 1,
          log := [] }).status = Status.ok ∧
      (DecodeContextMap.stateAfter
        (scriptedCoder Status.ok [4294967291, 1, 4294967293] true) [] 2
        { status := Status.ok, context_map := List.replicate 2147483650 0, i := 0,
          reader := [4294967291, 1, 4294967293], input := BitReader.mk [false] 1,
          log := [] }).i = 2147483649 ∧
      (2147483649 : Nat) < (List.replicate 2147483650 0 : List Nat).length ∧
      ((scriptedCoder Status.ok [4294967291, 1, 4294967293] true).readSymbol
        (DecodeContextMap.stateAfter
          (scriptedCoder Status.ok [4294967291, 1, 4294967293] true) [] 2
          { status := Status.ok, context_map := List.replicate 2147483650 0, i := 0,
            reader := [4294967291, 1, 4294967293], input := BitReader.mk [false] 1,
            log := [] }).reader (BitReader.mk [false] 1) []).1.1 = INT32_MIN + 1 ∧
      INT32_MIN < INT32_MIN + 1 ∧
      ¬ (2147483649 + 1 ≤ (DecodeContextMap.body
        (scriptedCoder Status.ok [4294967291, 1, 4294967293] true) []
        (DecodeContextMap.stateAfter
          (scriptedCoder Status.ok [4294967291, 1, 4294967293] true) [] 2
          { status := Status.ok, context_map := List.replicate 2147483650 0, i := 0,
            reader := [4294967291, 1, 4294967293], input := BitReader.mk [false] 1,
            log := [] })).i)) := by
  have hb1 : DecodeContextMap.body (scriptedCoder Status.ok [4294967291, 1, 4294967293] true) []
      { status := Status.ok, context_map := List.replicate 2147483650 0, i := 0,
        reader := [4294967291, 1, 4294967293], input := BitReader.mk [false] 1, log := [] } =
      { status := Status.ok, context_map := List.replicate 2147483650 0, i := 2147483647,
        reader := [1, 4294967293], input := BitReader.mk [false] 1,
        log := [Event.readSymbol (-2147483646)] } := rfl
  have hb2 : DecodeContextMap.body (scriptedCoder Status.ok [4294967291, 1, 4294967293] true) []
      { status := Status.ok, context_map := List.replicate 2147483650 0, i := 2147483647,
        reader := [1, 4294967293], input := BitReader.mk [false] 1,
        log := [Event.readSymbol (-2147483646)] } =
      { status := Status.ok, context_map := List.replicate 2147483650 0, i := 2147483649,
        reader := [4294967293], input := BitReader.mk [false] 1,
        log := [Event.readSymbol (-2147483646), Event.readSymbol (-1)] } := rfl
  have hstate : DecodeContextMap.stateAfter
      (scriptedCoder Status.ok [4294967291, 1, 4294967293] true) [] 2
        { status := Status.ok, context_map := List.replicate 2147483650 0, i := 0,
          reader := [4294967291, 1, 4294967293], input := BitReader.mk [false] 1, log := [] } =
      { status := Status.ok, context_map := List.replicate 2147483650 0, i := 2147483649,
        reader := [4294967293], input := BitReader.mk [false] 1,
        log := [Event.readSymbol (-2147483646), Event.readSymbol (-1)] } := by
    rw [DecodeContextMap.stateAfter_succ _ _ _ _
        (by show 0 < (List.replicate 2147483650 0).length
            rw [List.length_replicate]; decide) rfl, hb1,
      DecodeContextMap.stateAfter_succ _ _ _ _
        (by show 2147483647 < (List.replicate 2147483650 0).length
            rw [List.length_replicate]; decide) rfl, hb2]
    rfl
  refine ⟨by decide, ?_⟩
  rw [hstate]
  refine ⟨rfl, rfl, by rw [List.length_replicate]; decide, by decide, by decide, by decide⟩

/-- C19 (witness): a six-entry map and the symbols 1, -3, 0, read through a
collaborator whose symbols all lie between -512 and 511: three symbols are
read and the cursor moves 0, 1, 5, 6. -/
theorem DecodeContextMap_loop_progress_witness :
    (DecodeContextMap.loop (boundedCoder Status.ok [2, 5, 0] true) [] 6
        { status := Status.ok, context_map := List.replicate 6 0, i := 0, reader := [2, 5, 0],
          input := BitReader.mk [false] 1, log := [] }).map
      (fun s => (s.status, s.i, s.log.filter Event.isReadSymbol)) =
      some (Status.ok, 6, [Event.readSymbol 1, Event.readSymbol (-3), Event.readSymbol 0]) ∧
    ∃ sF, DecodeContextMap.loop (boundedCoder Status.ok [2, 5, 0] true) []
        (List.replicate 6 0).length
        { status := Status.ok, context_map := List.replicate 6 0, i := 0, reader := [2, 5, 0],
          input := BitReader.mk [false] 1, log := [] } = some sF ∧
      (sF.status = Status.ok ∨ sF.status = Status.failure "Invalid cluster ID") ∧
      (sF.log.filter Event.isReadSymbol).length ≤ (List.replicate 6 0).length :=
  ⟨by decide,
    (DecodeContextMap_loop_progress (boundedCoder Status.ok [2, 5, 0] true) []
      (List.replicate 6 0) [2, 5, 0] (BitReader.mk [false] 1) (by norm_num)
      (boundedCoder_symbols Status.ok [2, 5, 0] true [])).2⟩

end jxl
